import Mathlib

/-!
Verification of the Finance Tracker backend: a shallow embedding of the
HDFC e-mail transaction parser (`email-parser.ts`) and of the per-account
sync orchestrator (`cron-service.ts`), together with theorems settling the
specification claims about them.

The parser applies a fixed table of JS regular expressions to the
whitespace-normalised e-mail body, so the embedding starts with a small
backtracking regex engine mirroring JS `RegExp` semantics for exactly the
constructs those patterns use (ordered alternation, greedy and lazy
quantifiers, capture groups, character classes, the `/i` flag, `$`).
-/

/-- Capture environment: group index paired with the captured characters. -/
abbrev Caps := List (Nat × List Char)

/-- Regex abstract syntax: the constructs used by the source patterns. -/
inductive RE where
  | eps : RE
  | cls (p : Char → Bool) : RE
  | seq (a b : RE) : RE
  | alt (a b : RE) : RE
  | rep (lo : Nat) (hi : Option Nat) (greedy : Bool) (r : RE) : RE
  | group (i : Nat) (r : RE) : RE
  | eos : RE

/-- Backtracking matcher in continuation style; alternation is ordered and
    quantifiers backtrack, as in JS. `fuel` bounds the recursion depth. -/
def matchRe : Nat → RE → List Char → Caps → (List Char → Caps → Option Caps) → Option Caps
  | 0, _, _, _, _ => none
  | _ + 1, .eps, s, caps, k => k s caps
  | _ + 1, .cls p, s, caps, k =>
    match s with
    | [] => none
    | c :: rest => if p c then k rest caps else none
  | fuel + 1, .seq a b, s, caps, k =>
    matchRe fuel a s caps (fun s' caps' => matchRe fuel b s' caps' k)
  | fuel + 1, .alt a b, s, caps, k =>
    (matchRe fuel a s caps k).orElse (fun _ => matchRe fuel b s caps k)
  | fuel + 1, .group i r, s, caps, k =>
    matchRe fuel r s caps (fun s' caps' => k s' ((i, s.take (s.length - s'.length)) :: caps'))
  | fuel + 1, .rep lo hi greedy r, s, caps, k =>
    match lo with
    | lo' + 1 =>
      matchRe fuel r s caps (fun s' caps' =>
        matchRe fuel (.rep lo' (hi.map (· - 1)) greedy r) s' caps' k)
    | 0 =>
      match hi with
      | some 0 => k s caps
      | _ =>
        if greedy then
          (matchRe fuel r s caps (fun s' caps' =>
            if s'.length < s.length then
              matchRe fuel (.rep 0 (hi.map (· - 1)) greedy r) s' caps' k
            else none)).orElse (fun _ => k s caps)
        else
          (k s caps).orElse (fun _ =>
            matchRe fuel r s caps (fun s' caps' =>
              if s'.length < s.length then
                matchRe fuel (.rep 0 (hi.map (· - 1)) greedy r) s' caps' k
              else none))
  | _ + 1, .eos, s, caps, k => if s.isEmpty then k s caps else none

/-- Leftmost match: try the pattern at each start position in turn, as
    `String.prototype.match` does for a non-global regex. -/
def reScan (fuel : Nat) (r : RE) : List Char → Option Caps
  | [] => matchRe fuel r [] [] (fun _ caps => some caps)
  | c :: t =>
    match matchRe fuel r (c :: t) [] (fun _ caps => some caps) with
    | some caps => some caps
    | none => reScan fuel r t

/-- Look up a capture group (`match[i]`); the groups of these patterns always
    participate in a successful match. -/
def capGet (caps : Caps) (i : Nat) : List Char :=
  ((caps.find? (fun p => p.1 == i)).map (·.2)).getD []

/-- JS `\s` restricted to the whitespace characters these inputs can contain. -/
def isSpaceCh (c : Char) : Bool :=
  c == ' ' || c == '\t' || c == '\n' || c == '\r' || c == '\x0b' || c == '\x0c'

/-- JS `\w`, i.e. `[A-Za-z0-9_]`. -/
def isWordCh (c : Char) : Bool := c.isAlpha || c.isDigit || c == '_'

/-- One character, case-insensitively (a literal under the `/i` flag). -/
def ichr (a : Char) : RE := .cls (fun c => c.toLower == a.toLower)

/-- One character, exact. -/
def schr (a : Char) : RE := .cls (fun c => c == a)

/-- Sequence a list of regexes. -/
def cat (l : List RE) : RE := l.foldr .seq .eps

/-- Ordered alternation of a list of regexes. -/
def alts : List RE → RE
  | [] => .eps
  | [r] => r
  | r :: rest => .alt r (alts rest)

/-- Literal string under the `/i` flag. -/
def istr (s : String) : RE := cat (s.toList.map ichr)

/-- Case-sensitive literal string. -/
def sstr (s : String) : RE := cat (s.toList.map schr)

def q01 (r : RE) : RE := .rep 0 (some 1) true r
def star (r : RE) : RE := .rep 0 none true r
def plus (r : RE) : RE := .rep 1 none true r
def qn (n : Nat) (r : RE) : RE := .rep n (some n) true r
def qrange (lo hi : Nat) (r : RE) : RE := .rep lo (some hi) true r

def dig : RE := .cls Char.isDigit
def spS : RE := star (.cls isSpaceCh)
def spP : RE := plus (.cls isSpaceCh)

/-! The `PATTERNS` table of `email-parser.ts`, one definition per entry. -/

/-- `amount: /(?:Rs\.?|INR)\s*([\d,]+\.?\d*)/i` -/
def amountRE : RE := cat [
  .alt (cat [istr "Rs", q01 (schr '.')]) (istr "INR"),
  spS,
  .group 1 (cat [plus (.cls fun c => c.isDigit || c == ','), q01 (schr '.'), star dig])]

/-- `type: /(credited|debited)/i` -/
def typeRE : RE := .group 1 (.alt (istr "credited") (istr "debited"))

/-- `account: /(?:account\s*\*{0,2}|XX|ending\s*)(\d{4})/i` -/
def accountRE : RE := cat [
  alts [cat [istr "account", spS, qrange 0 2 (schr '*')], istr "XX", cat [istr "ending", spS]],
  .group 1 (qn 4 dig)]

/-- `date: /(\d{2}[-\/]\d{2}[-\/]\d{2,4}|\d{1,2}\s+[A-Za-z]{3},?\s+\d{4})/` (no `/i` flag) -/
def dateRE : RE := .group 1 (.alt
  (cat [qn 2 dig, .cls (fun c => c == '-' || c == '/'), qn 2 dig,
        .cls (fun c => c == '-' || c == '/'), qrange 2 4 dig])
  (cat [qrange 1 2 dig, spP, qn 3 (.cls Char.isAlpha), q01 (schr ','), spP, qn 4 dig]))

/-- `time: /at\s+(\d{2}:\d{2}(?::\d{2})?)/` (no `/i` flag) -/
def timeRE : RE := cat [sstr "at", spP,
  .group 1 (cat [qn 2 dig, schr ':', qn 2 dig, q01 (cat [schr ':', qn 2 dig])])]

/-- `method: /(UPI|Debit Card|Credit Card|Cash Deposit(?:\s+Machine)?|Net Banking|NEFT|IMPS|RTGS)/i` -/
def methodRE : RE := .group 1 (alts [
  istr "UPI", istr "Debit Card", istr "Credit Card",
  cat [istr "Cash Deposit", q01 (cat [spP, istr "Machine"])],
  istr "Net Banking", istr "NEFT", istr "IMPS", istr "RTGS"])

/-- `referenceNumber: /(?:reference number is|ref(?:erence)?\.?\s*(?:no|number)?\.?\s*(?:is)?)\s*:?\s*(\w+)/i` -/
def referenceNumberRE : RE := cat [
  .alt (istr "reference number is")
       (cat [istr "ref", q01 (istr "erence"), q01 (schr '.'), spS,
             q01 (.alt (istr "no") (istr "number")), q01 (schr '.'), spS, q01 (istr "is")]),
  spS, q01 (schr ':'), spS, .group 1 (plus (.cls isWordCh))]

/-- `upiMerchant: /(?:to|by)\s+VPA\s+([^\s]+@[^\s]+)\s+([A-Z][A-Za-z\s]+?)(?:\s+on|\s+Your|$)/i`
    (under `/i`, the class `[A-Z]` also matches lowercase letters). -/
def upiMerchantRE : RE := cat [
  .alt (istr "to") (istr "by"), spP, istr "VPA", spP,
  .group 1 (cat [plus (.cls fun c => !isSpaceCh c), schr '@', plus (.cls fun c => !isSpaceCh c)]),
  spP,
  .group 2 (cat [.cls Char.isAlpha, .rep 1 none false (.cls fun c => c.isAlpha || isSpaceCh c)]),
  alts [cat [spP, istr "on"], cat [spP, istr "Your"], .eos]]

/-- `cardMerchant: /at\s+([A-Z][A-Z0-9\s\-]+?)(?:\s+on|\s+at\s+\d)/i` -/
def cardMerchantRE : RE := cat [
  istr "at", spP,
  .group 1 (cat [.cls Char.isAlpha,
                 .rep 1 none false (.cls fun c => c.isAlpha || c.isDigit || isSpaceCh c || c == '-')]),
  .alt (cat [spP, istr "on"]) (cat [spP, istr "at", spP, dig])]

/-- `depositLocation: /at\s+([A-Za-z\s\-]+)(?:\s+via)/i` -/
def depositLocationRE : RE := cat [
  istr "at", spP,
  .group 1 (plus (.cls fun c => c.isAlpha || isSpaceCh c || c == '-')),
  spP, istr "via"]

/-- `balance: /available balance (?:is\s+)?(?:INR|Rs\.?)\s*([\d,]+\.?\d*)/i` -/
def balanceRE : RE := cat [
  istr "available balance ", q01 (cat [istr "is", spP]),
  .alt (istr "INR") (cat [istr "Rs", q01 (schr '.')]),
  spS,
  .group 1 (cat [plus (.cls fun c => c.isDigit || c == ','), q01 (schr '.'), star dig])]

/-- Recursion-depth budget, ample for any body these claims evaluate. -/
def reFuel : Nat := 2000

/-! Field normalisation: JS numbers, `parseFloat`/`parseInt`, the Date model. -/

/-- A JS number as produced by this code: NaN or an exact rational value. -/
inductive JNum where
  | nan : JNum
  | val (q : ℚ) : JNum
deriving DecidableEq

/-- `x.replace(/,/g, '')` on a captured token. -/
def stripCommas (l : List Char) : List Char := l.filter (fun c => c ≠ ',')

def digitsToNat (l : List Char) : Nat :=
  l.foldl (fun a c => a * 10 + (c.toNat - '0'.toNat)) 0

/-- `parseFloat` on the digit-and-dot tokens produced by these patterns
    (shape `digits* ['.' digits*]` after comma-stripping): NaN when no digit
    leads on either side of the dot. -/
def jsParseFloat (l : List Char) : JNum :=
  let ip := l.takeWhile Char.isDigit
  let rest := l.drop ip.length
  match rest with
  | '.' :: fp' =>
    let fp := fp'.takeWhile Char.isDigit
    if ip.isEmpty && fp.isEmpty then .nan
    else .val ((digitsToNat ip : ℚ) + (digitsToNat fp : ℚ) / (10 ^ fp.length : ℚ))
  | _ => if ip.isEmpty then .nan else .val (digitsToNat ip)

/-- `parseInt(s, 10)` on the tokens produced here: the leading digit run,
    `none` (NaN) when there is none. -/
def jsParseInt (l : List Char) : Option Int :=
  let ds := (l.dropWhile isSpaceCh).takeWhile Char.isDigit
  if ds.isEmpty then none else some (digitsToNat ds)

/-- Days since 1970-01-01 of a proleptic-Gregorian civil date (month 1-12). -/
def daysFromCivil (y m d : Int) : Int :=
  let y' := y - (if m ≤ 2 then 1 else 0)
  let era := y' / 400
  let yoe := y' - era * 400
  let doy := (153 * (m + (if m > 2 then -3 else 9)) + 2) / 5 + d - 1
  let doe := yoe * 365 + yoe / 4 - yoe / 100 + doy
  era * 146097 + doe - 719468

/-- Civil date (year, month 1-12, day) of a day number; inverse of
    `daysFromCivil`. -/
def civilFromDays (z0 : Int) : Int × Int × Int :=
  let z := z0 + 719468
  let era := z / 146097
  let doe := z % 146097
  let yoe := (doe - doe / 1460 + doe / 36524 - doe / 146096) / 365
  let y := yoe + era * 400
  let doy := doe - (365 * yoe + yoe / 4 - yoe / 100)
  let mp := (5 * doy + 2) / 153
  let d := doy - (153 * mp + 2) / 5 + 1
  let m := mp + (if mp < 10 then 3 else -9)
  (y + (if m ≤ 2 then 1 else 0), m, d)

/-- ECMAScript MakeDay: the month argument is 0-based and may be out of range. -/
def jsMakeDay (y m d : Int) : Int :=
  let ym := y + m / 12
  let mn := m % 12
  daysFromCivil ym (mn + 1) 1 + (d - 1)

/-- `new Date(y, m, d)` as epoch milliseconds (two-digit years map to 1900+y). -/
def jsMakeDateMs (y m d : Int) : Int :=
  let yy := if 0 ≤ y ∧ y ≤ 99 then 1900 + y else y
  jsMakeDay yy m d * 86400000

/-- `d.setHours(h, mi, s)`: replaces the time of day, keeping milliseconds. -/
def jsSetHours (t h mi s : Int) : Int :=
  (t / 86400000) * 86400000 + h * 3600000 + mi * 60000 + s * 1000 + t % 1000

def msGetDate (t : Int) : Int := (civilFromDays (t / 86400000)).2.2
def msGetMonth (t : Int) : Int := (civilFromDays (t / 86400000)).2.1 - 1
def msGetFullYear (t : Int) : Int := (civilFromDays (t / 86400000)).1
def msGetHours (t : Int) : Int := (t % 86400000) / 3600000
def msGetMinutes (t : Int) : Int := ((t % 86400000) % 3600000) / 60000

/-- `String(x).padStart(2, '0')`. -/
def jsPadStart2 (s : String) : String :=
  if s.length ≥ 2 then s else String.mk (List.replicate (2 - s.length) '0' ++ s.data)

/-- `formatToIndianDateTime` from `email-parser.ts`. A date value of `none` is
    an Invalid Date, for which the JS template renders NaN components (and
    `NaN % 12 || 12` yields 12, `NaN >= 12` is false). -/
def formatToIndianDateTime : Option Int → String
  | none => "NaN/NaN/NaN 12:NaN AM"
  | some t =>
    let day := jsPadStart2 (toString (msGetDate t))
    let month := jsPadStart2 (toString (msGetMonth t + 1))
    let year := msGetFullYear t
    let minutes := jsPadStart2 (toString (msGetMinutes t))
    let ampm := if msGetHours t ≥ 12 then "PM" else "AM"
    let hours : Int := if msGetHours t % 12 == 0 then 12 else msGetHours t % 12
    day ++ "/" ++ month ++ "/" ++ toString year ++ " " ++ toString hours ++ ":" ++ minutes ++ " " ++ ampm

/-- JS `split` at every separator character satisfying `p`. -/
def splitOnPred (p : Char → Bool) : List Char → List (List Char)
  | [] => [[]]
  | c :: rest =>
    let r := splitOnPred p rest
    if p c then [] :: r
    else (c :: r.headD []) :: r.tail

/-- `s.replace(',', '')`: removes only the first comma. -/
def removeFirstComma : List Char → List Char
  | [] => []
  | c :: rest => if c == ',' then rest else c :: removeFirstComma rest

def monthNames : List (List Char) :=
  ["jan", "feb", "mar", "apr", "may", "jun", "jul", "aug", "sep", "oct", "nov", "dec"].map
    String.toList

/-- Modelled from the spec (§4.2, "otherwise parse as a natural-language
    date"): the JS `new Date(string)` fallback for the only string shape
    reachable here, `D Mon YYYY`, month names matched case-insensitively;
    anything else is an Invalid Date. -/
def jsParseMonthNameDate (l : List Char) : Option Int :=
  match (splitOnPred isSpaceCh l).filter (fun p => ¬p.isEmpty) with
  | [ds, mons, ys] =>
    match (monthNames.indexOf? (mons.map Char.toLower)), jsParseInt ds, jsParseInt ys with
    | some m0, some d, some y => some (jsMakeDateMs y (m0 : Int) d)
    | _, _, _ => none
  | _ => none

/-- `parseEmailDate` from `email-parser.ts`. `none` is an Invalid Date. -/
def parseEmailDate (dateStr : List Char) (timeStr : Option (List Char)) : Option Int :=
  let base : Option Int :=
    if dateStr.contains '-' || dateStr.contains '/' then
      let parts := splitOnPred (fun c => c == '-' || c == '/') dateStr
      match jsParseInt (parts.getD 0 []), jsParseInt (parts.getD 1 []), jsParseInt (parts.getD 2 []) with
      | some day, some m, some y0 =>
        let y := if y0 < 100 then 2000 + y0 else y0
        some (jsMakeDateMs y (m - 1) day)
      | _, _, _ => none
    else
      jsParseMonthNameDate (removeFirstComma dateStr)
  match base with
  | none => none
  | some t =>
    match timeStr with
    | none => some t
    | some ts =>
      let tp := splitOnPred (fun c => c == ':') ts
      match jsParseInt (tp.getD 0 []), jsParseInt (tp.getD 1 []) with
      | some h, some mi =>
        match tp.get? 2 with
        | some sv => (jsParseInt sv).map (fun s => jsSetHours t h mi s)
        | none => some (jsSetHours t h mi 0)
      | _, _ => none

/-! Transaction assembly: `parseHDFCEmail` from `email-parser.ts`, one Lean
    step function per source block, chained in source order. -/

/-- The `availableBalance` field has JS type `number | string`. -/
inductive BalVal where
  | str (s : String) : BalVal
  | num (n : JNum) : BalVal
deriving DecidableEq

structure ParsedTransaction where
  dateTime : String
  amount : JNum
  type : String
  method : String
  account : String
  description : String
  referenceNumber : String
  availableBalance : BalVal
  category : String
  notes : String
  emailReceivedDate : String
deriving DecidableEq

/-- The diagnostic record attached to a rejected parse. -/
structure EmailData where
  email_id : String
  subject : String
  body_snippet : String
  received_date : Int
  sender : String
deriving DecidableEq

structure ParseResult where
  success : Bool
  transaction : Option ParsedTransaction
  error : Option String
  emailData : Option EmailData
deriving DecidableEq

/-- `emailBody.replace(/\s+/g, ' ')`. -/
def collapseWs (l : List Char) : List Char :=
  (l.map (fun c => if isSpaceCh c then ' ' else c)).foldr
    (fun c acc => if c == ' ' && acc.head? == some ' ' then acc else c :: acc) []

/-- JS `trim`. -/
def jsTrim (l : List Char) : List Char :=
  ((l.dropWhile isSpaceCh).reverse.dropWhile isSpaceCh).reverse

/-- `emailBody.replace(/\s+/g, ' ').trim()`. -/
def normalizeBody (b : String) : List Char := jsTrim (collapseWs b.data)

/-- JS `includes` on character lists. -/
def containsSub : List Char → List Char → Bool
  | _, [] => true
  | [], _ :: _ => false
  | c :: t, n => (n.isPrefixOf (c :: t)) || containsSub t n

/-- A JS number is falsy iff it is 0 or NaN. -/
def jsFalsyNum : JNum → Bool
  | .nan => true
  | .val q => q == 0

/-- The transaction skeleton initialised at the top of `parseHDFCEmail`. -/
def initTransaction (receivedDate : Int) : ParsedTransaction := {
  dateTime := "", amount := .val 0, type := "Debit", method := "Other",
  account := "", description := "", referenceNumber := "",
  availableBalance := .str "N/A", category := "", notes := "",
  emailReceivedDate := formatToIndianDateTime (some receivedDate) }

/-- `if (amountMatch) { transaction.amount = parseFloat(...) }`. -/
def applyAmount (nb : List Char) (t : ParsedTransaction) : ParsedTransaction :=
  match reScan reFuel amountRE nb with
  | some caps => { t with amount := jsParseFloat (stripCommas (capGet caps 1)) }
  | none => t

/-- `if (typeMatch) { transaction.type = ... === 'credited' ? 'Credit' : 'Debit' }`. -/
def applyType (nb : List Char) (t : ParsedTransaction) : ParsedTransaction :=
  match reScan reFuel typeRE nb with
  | some caps =>
    { t with type := if (capGet caps 1).map Char.toLower = "credited".data then "Credit" else "Debit" }
  | none => t

/-- `if (accountMatch) { transaction.account = accountMatch[1] }`. -/
def applyAccount (nb : List Char) (t : ParsedTransaction) : ParsedTransaction :=
  match reScan reFuel accountRE nb with
  | some caps => { t with account := String.mk (capGet caps 1) }
  | none => t

/-- The date/time block: parse the date token (overlaying the time token)
    and format it, else fall back to the received instant's format. -/
def applyDateTime (nb : List Char) (t : ParsedTransaction) : ParsedTransaction :=
  match reScan reFuel dateRE nb with
  | some caps =>
    let timeCap := (reScan reFuel timeRE nb).map (fun tc => capGet tc 1)
    { t with dateTime := formatToIndianDateTime (parseEmailDate (capGet caps 1) timeCap) }
  | none => { t with dateTime := t.emailReceivedDate }

/-- The method block: vocabulary match (collapsing any cash-deposit match to
    "Cash Deposit"), else the literal-"upi" fallback. -/
def applyMethod (nb : List Char) (t : ParsedTransaction) : ParsedTransaction :=
  match reScan reFuel methodRE nb with
  | some caps =>
    let m := capGet caps 1
    if containsSub (m.map Char.toLower) "cash deposit".data then { t with method := "Cash Deposit" }
    else { t with method := String.mk m }
  | none =>
    if containsSub (nb.map Char.toLower) "upi".data then { t with method := "UPI" } else t

/-- `if (refMatch) { transaction.referenceNumber = refMatch[1] }`. -/
def applyReference (nb : List Char) (t : ParsedTransaction) : ParsedTransaction :=
  match reScan reFuel referenceNumberRE nb with
  | some caps => { t with referenceNumber := String.mk (capGet caps 1) }
  | none => t

/-- The method-conditional merchant/location description block. -/
def applyDescription (nb : List Char) (t : ParsedTransaction) : ParsedTransaction :=
  if t.method == "UPI" then
    match reScan reFuel upiMerchantRE nb with
    | some caps =>
      { t with description :=
          String.mk (jsTrim (capGet caps 2)) ++ " (" ++ String.mk (capGet caps 1) ++ ")" }
    | none => t
  else if t.method == "Debit Card" || t.method == "Credit Card" then
    match reScan reFuel cardMerchantRE nb with
    | some caps => { t with description := String.mk (jsTrim (capGet caps 1)) }
    | none => t
  else if t.method == "Cash Deposit" then
    match reScan reFuel depositLocationRE nb with
    | some caps => { t with description := "Cash Deposit at " ++ String.mk (jsTrim (capGet caps 1)) }
    | none => t
  else t

/-- `if (!transaction.description && emailSubject) { ... substring(0, 50) }`. -/
def applySubjectFallback (emailSubject : String) (t : ParsedTransaction) : ParsedTransaction :=
  if t.description == "" && emailSubject != "" then
    { t with description := String.mk (emailSubject.data.take 50) }
  else t

/-- `if (balanceMatch) { transaction.availableBalance = parseFloat(...) }`. -/
def applyBalance (nb : List Char) (t : ParsedTransaction) : ParsedTransaction :=
  match reScan reFuel balanceRE nb with
  | some caps => { t with availableBalance := .num (jsParseFloat (stripCommas (capGet caps 1))) }
  | none => t

/-- All field-extraction steps of `parseHDFCEmail`, in source order. -/
def extractFields (emailBody emailSubject : String) (receivedDate : Int) : ParsedTransaction :=
  let nb := normalizeBody emailBody
  applyBalance nb (applySubjectFallback emailSubject (applyDescription nb (applyReference nb
    (applyMethod nb (applyDateTime nb (applyAccount nb (applyType nb
      (applyAmount nb (initTransaction receivedDate)))))))))

/-- `parseHDFCEmail` from `email-parser.ts`: extraction, then the acceptance
    gate `if (!transaction.amount || !transaction.type || !transaction.account)`,
    then the `EMAIL_<id>` reference fallback. -/
def parseHDFCEmail (emailBody emailSubject : String) (receivedDate : Int)
    (emailId : String) : ParseResult :=
  let t := extractFields emailBody emailSubject receivedDate
  if jsFalsyNum t.amount || t.type == "" || t.account == "" then
    { success := false, transaction := none,
      error := some "Missing required fields (amount, type, or account)",
      emailData := some {
        email_id := emailId, subject := emailSubject,
        body_snippet := String.mk (emailBody.data.take 200),
        received_date := receivedDate, sender := "alerts@hdfcbank.net" } }
  else
    let t := if t.referenceNumber == "" then { t with referenceNumber := "EMAIL_" ++ emailId } else t
    { success := true, transaction := some t, error := none, emailData := none }

/-! The sync orchestrator: `processUser` and `runCron` from `cron-service.ts`.
    External collaborators (credential decryption and exchange, mail
    retrieval, ledger availability) appear as an explicit environment; the
    orchestrator's own control flow and state updates are embedded from the
    source. -/

/-- One entry of the rolling `missed_emails` log. -/
structure RejectedEmail where
  email_id : String
  subject : String
  body_snippet : String
  received_date : Int
  sender : String
deriving DecidableEq

/-- The per-account registry row used by the orchestrator. -/
structure UserState where
  google_sheet_id : Option String
  last_processed_email_timestamp : Option Int
  is_processing : Bool
  is_active : Bool
  missed_emails : List RejectedEmail
  last_sync_time : Option Int
deriving DecidableEq

/-- A retrieved mail message; `fetchOk` is false when fetching or decoding
    this message faults (the per-message `catch`). -/
structure Msg where
  id : String
  subject : String
  body : String
  received : Int
  fetchOk : Bool
deriving DecidableEq

/-- The account's ledger sheet: the reference-number column `Transactions!G2:G`
    grows with every appended row, plus the appended transaction rows and the
    `Metadata!B2` watermark cell. -/
structure Ledger where
  refColumn : List String
  rows : List ParsedTransaction
  metadataB2 : Option Int
deriving DecidableEq

/-- Environment of one `processUser` run: outcomes of the external calls. -/
structure Env where
  decryptOk : Bool
  tokenOk : Bool
  readOk : Bool
  msgs : List Msg
  appendFault : Bool
  metaOk : Bool
  now : Int
deriving DecidableEq

/-- The in-loop deduplication of `processUser` (lines 163-169), viewed on a
    candidate list: keep a candidate iff its reference number is not in the
    seen-set, which starts as the ledger's reference column and grows with
    each kept candidate. -/
def reconcile (seen : List String) : List ParsedTransaction → List ParsedTransaction
  | [] => []
  | c :: cs =>
    if c.referenceNumber ∈ seen then reconcile seen cs
    else c :: reconcile (c.referenceNumber :: seen) cs

/-- Candidates a message batch produces: the accepted transactions of the
    fetchable messages, in arrival order. -/
def batchCandidates (msgs : List Msg) : List ParsedTransaction :=
  msgs.filterMap (fun m =>
    if m.fetchOk then
      let res := parseHDFCEmail m.body m.subject m.received m.id
      if res.success then res.transaction else none
    else none)

/-- The rejected-message records a batch produces, in arrival order. -/
def batchMissed (msgs : List Msg) : List RejectedEmail :=
  msgs.filterMap (fun m =>
    if m.fetchOk then
      let res := parseHDFCEmail m.body m.subject m.received m.id
      if res.success then none
      else some { email_id := m.id, subject := m.subject,
                  body_snippet := String.mk (m.body.data.take 200),
                  received_date := m.received, sender := "alerts@hdfcbank.net" }
    else none)

/-- One step of the `latestTimestamp` accumulation:
    `if (!latestTimestamp || receivedDate > latestTimestamp)`. -/
def latStep (acc : Option Int) (m : Msg) : Option Int :=
  if m.fetchOk then
    match acc with
    | none => some m.received
    | some l => if m.received > l then some m.received else some l
  else acc

/-- `latestTimestamp`: the maximum received instant over the processed
    (fetchable) messages of the batch, parse outcome notwithstanding. -/
def batchLatest (msgs : List Msg) : Option Int :=
  msgs.foldl latStep none

/-- `[...currentMissed, ...missedEmails].slice(-50)`. -/
def lastN (n : Nat) (l : List RejectedEmail) : List RejectedEmail :=
  l.drop (l.length - n)

/-- `processUser` from `cron-service.ts`: entry guards, busy flag, credential
    acquisition, message loop, dedup, ledger append, watermark update and the
    combined account-state update; returns the new account state, the new
    ledger and `some (accepted, rejected)` counts or `none` on failure. -/
def processUser (u : UserState) (led : Ledger) (e : Env) :
    UserState × Ledger × Option (Nat × Nat) :=
  if u.google_sheet_id.isNone then (u, led, some (0, 0))
  else if u.is_processing then (u, led, some (0, 0))
  else
    let u1 := { u with is_processing := true }
    if ¬e.decryptOk then
      ({ u1 with is_processing := false }, led, none)
    else if ¬e.tokenOk then
      ({ u1 with is_active := false, is_processing := false }, led, none)
    else if e.msgs.isEmpty then
      ({ u1 with is_processing := false, last_sync_time := some e.now }, led, some (0, 0))
    else
      let existingRefs := if e.readOk then led.refColumn else []
      let newTransactions := reconcile existingRefs (batchCandidates e.msgs)
      let missedEmails := batchMissed e.msgs
      let latestTimestamp := batchLatest e.msgs
      if e.appendFault then
        ({ u1 with is_processing := false }, led, none)
      else
        let led1 :=
          if newTransactions.isEmpty then led
          else { led with rows := led.rows ++ newTransactions,
                          refColumn := led.refColumn ++ newTransactions.map (·.referenceNumber) }
        let led2 :=
          match latestTimestamp with
          | some l => if e.metaOk then { led1 with metadataB2 := some l } else led1
          | none => led1
        let u2 := { u1 with
          last_processed_email_timestamp :=
            latestTimestamp.orElse (fun _ => u.last_processed_email_timestamp),
          last_sync_time := some e.now,
          is_processing := false,
          missed_emails := lastN 50 (u.missed_emails ++ missedEmails) }
        (u2, led2, some (newTransactions.length, missedEmails.length))

/-- `runCron`: iterate `processUser` over the active accounts sequentially,
    accumulating the totals of the successful per-account results. -/
def runCron (accounts : List (UserState × Ledger × Env)) :
    List (UserState × Ledger × Option (Nat × Nat)) × Nat × Nat :=
  let results := accounts.map (fun a => processUser a.1 a.2.1 a.2.2)
  (results,
   results.foldl (fun tot r =>
     match r.2.2 with
     | some (tx, ms) => (tot.1 + tx, tot.2 + ms)
     | none => tot) (0, 0))

/-! Inversion lemmas for the matcher, used to characterise what the method
    pattern can capture. -/

theorem cat_cons (r : RE) (l : List RE) : cat (r :: l) = .seq r (cat l) := rfl

theorem cat_nil : cat [] = .eps := rfl

theorem orElse_eq_some {α : Type} {x : Option α} {f : Unit → Option α} {r : α}
    (h : x.orElse f = some r) : x = some r ∨ (x = none ∧ f () = some r) := by
  cases x with
  | none => exact Or.inr ⟨rfl, h⟩
  | some v => exact Or.inl h

/-- A successful match invokes its continuation on a suffix of the input. -/
theorem matchRe_some_suffix :
    ∀ (fuel : Nat) (r : RE) (s : List Char) (caps : Caps)
      (k : List Char → Caps → Option Caps) (res : Caps),
      matchRe fuel r s caps k = some res →
      ∃ s' caps', s' <:+ s ∧ k s' caps' = some res := by
  intro fuel
  induction fuel with
  | zero => intro r s caps k res h; simp [matchRe] at h
  | succ fuel ih =>
    intro r s caps k res h
    cases r with
    | eps => exact ⟨s, caps, List.suffix_refl s, h⟩
    | cls p =>
      cases s with
      | nil => simp [matchRe] at h
      | cons c rest =>
        simp only [matchRe] at h
        split at h
        · exact ⟨rest, caps, List.suffix_cons c rest, h⟩
        · simp at h
    | seq a b =>
      simp only [matchRe] at h
      obtain ⟨s1, c1, hsuf1, h1⟩ := ih a s caps _ res h
      obtain ⟨s2, c2, hsuf2, h2⟩ := ih b s1 c1 _ res h1
      exact ⟨s2, c2, hsuf2.trans hsuf1, h2⟩
    | alt a b =>
      simp only [matchRe] at h
      rcases orElse_eq_some h with h' | ⟨_, h'⟩
      · exact ih a s caps _ res h'
      · exact ih b s caps _ res h'
    | group i r' =>
      simp only [matchRe] at h
      obtain ⟨s1, c1, hsuf, h1⟩ := ih r' s caps _ res h
      exact ⟨s1, (i, s.take (s.length - s1.length)) :: c1, hsuf, h1⟩
    | eos =>
      simp only [matchRe] at h
      split at h
      · exact ⟨s, caps, List.suffix_refl s, h⟩
      · simp at h
    | rep lo hi greedy r' =>
      cases lo with
      | succ lo' =>
        simp only [matchRe] at h
        obtain ⟨s1, c1, hsuf1, h1⟩ := ih r' s caps _ res h
        obtain ⟨s2, c2, hsuf2, h2⟩ := ih _ s1 c1 _ res h1
        exact ⟨s2, c2, hsuf2.trans hsuf1, h2⟩
      | zero =>
        cases hi with
        | none =>
          simp only [matchRe] at h
          cases greedy with
          | true =>
            simp only [if_pos rfl] at h
            rcases orElse_eq_some h with h' | ⟨_, h'⟩
            · obtain ⟨s1, c1, hsuf1, h1⟩ := ih r' s caps _ res h'
              split at h1
              · obtain ⟨s2, c2, hsuf2, h2⟩ := ih _ s1 c1 _ res h1
                exact ⟨s2, c2, hsuf2.trans hsuf1, h2⟩
              · simp at h1
            · exact ⟨s, caps, List.suffix_refl s, h'⟩
          | false =>
            simp only [Bool.false_eq_true, if_neg] at h
            rcases orElse_eq_some h with h' | ⟨_, h'⟩
            · exact ⟨s, caps, List.suffix_refl s, h'⟩
            · obtain ⟨s1, c1, hsuf1, h1⟩ := ih r' s caps _ res h'
              split at h1
              · obtain ⟨s2, c2, hsuf2, h2⟩ := ih _ s1 c1 _ res h1
                exact ⟨s2, c2, hsuf2.trans hsuf1, h2⟩
              · simp at h1
        | some n =>
          cases n with
          | zero =>
            simp only [matchRe] at h
            exact ⟨s, caps, List.suffix_refl s, h⟩
          | succ n' =>
            simp only [matchRe] at h
            cases greedy with
            | true =>
              simp only [if_pos rfl] at h
              rcases orElse_eq_some h with h' | ⟨_, h'⟩
              · obtain ⟨s1, c1, hsuf1, h1⟩ := ih r' s caps _ res h'
                split at h1
                · obtain ⟨s2, c2, hsuf2, h2⟩ := ih _ s1 c1 _ res h1
                  exact ⟨s2, c2, hsuf2.trans hsuf1, h2⟩
                · simp at h1
              · exact ⟨s, caps, List.suffix_refl s, h'⟩
            | false =>
              simp only [Bool.false_eq_true, if_neg] at h
              rcases orElse_eq_some h with h' | ⟨_, h'⟩
              · exact ⟨s, caps, List.suffix_refl s, h'⟩
              · obtain ⟨s1, c1, hsuf1, h1⟩ := ih r' s caps _ res h'
                split at h1
                · obtain ⟨s2, c2, hsuf2, h2⟩ := ih _ s1 c1 _ res h1
                  exact ⟨s2, c2, hsuf2.trans hsuf1, h2⟩
                · simp at h1

/-- A successful match of a sequence of single-character classes consumes a
    prefix satisfying them pointwise. -/
theorem matchRe_cat_cls :
    ∀ (ps : List (Char → Bool)) (fuel : Nat) (s : List Char) (caps : Caps)
      (k : List Char → Caps → Option Caps) (res : Caps),
      matchRe fuel (cat (ps.map RE.cls)) s caps k = some res →
      ∃ pre s', s = pre ++ s' ∧ List.Forall₂ (fun p c => p c = true) ps pre ∧
        k s' caps = some res := by
  intro ps
  induction ps with
  | nil =>
    intro fuel s caps k res h
    cases fuel with
    | zero => simp [matchRe] at h
    | succ fuel =>
      exact ⟨[], s, rfl, List.Forall₂.nil, h⟩
  | cons p ps ihp =>
    intro fuel s caps k res h
    cases fuel with
    | zero => simp [matchRe] at h
    | succ fuel =>
      rw [List.map_cons, cat_cons] at h
      simp only [matchRe] at h
      cases fuel with
      | zero => simp [matchRe] at h
      | succ fuel2 =>
        cases s with
        | nil => simp [matchRe] at h
        | cons c rest =>
          simp only [matchRe] at h
          split at h
          case isTrue hp =>
            obtain ⟨pre, s', heq, hfa, hk⟩ := ihp _ rest caps k res h
            exact ⟨c :: pre, s', by rw [heq, List.cons_append], List.Forall₂.cons hp hfa, hk⟩
          case isFalse => simp at h

theorem forall2_lower_eq :
    ∀ {la lb : List Char},
      List.Forall₂ (fun a c => (c.toLower == a.toLower) = true) la lb →
      lb.map Char.toLower = la.map Char.toLower := by
  intro la lb h
  induction h with
  | nil => rfl
  | cons h1 _ ih =>
    simp only [List.map_cons, ih, List.cons.injEq, and_true]
    exact eq_of_beq h1

/-- A successful match of a case-insensitive literal consumes a prefix that
    case-folds to the literal. -/
theorem matchRe_istr (lit : String) (fuel : Nat) (s : List Char) (caps : Caps)
    (k : List Char → Caps → Option Caps) (res : Caps)
    (h : matchRe fuel (istr lit) s caps k = some res) :
    ∃ pre s', s = pre ++ s' ∧ pre.map Char.toLower = lit.data.map Char.toLower ∧
      k s' caps = some res := by
  have hre : istr lit =
      cat ((lit.data.map (fun a => (fun c => c.toLower == a.toLower))).map RE.cls) := by
    simp only [istr, String.toList, List.map_map]
    rfl
  rw [hre] at h
  obtain ⟨pre, s', heq, hfa, hk⟩ := matchRe_cat_cls _ fuel s caps k res h
  refine ⟨pre, s', heq, ?_, hk⟩
  rw [List.forall₂_map_left_iff] at hfa
  exact forall2_lower_eq hfa

/-- A successful scan succeeds at some start position. -/
theorem reScan_some (fuel : Nat) (r : RE) :
    ∀ (s : List Char) (res : Caps), reScan fuel r s = some res →
      ∃ tail, tail <:+ s ∧ matchRe fuel r tail [] (fun _ caps => some caps) = some res := by
  intro s
  induction s with
  | nil =>
    intro res h
    rw [reScan] at h
    exact ⟨[], List.suffix_refl _, h⟩
  | cons c t ih =>
    intro res h
    rw [reScan] at h
    cases hm : matchRe fuel r (c :: t) [] (fun _ caps => some caps) with
    | some caps => rw [hm] at h; exact ⟨c :: t, List.suffix_refl _, hm.trans h⟩
    | none =>
      rw [hm] at h
      obtain ⟨tail, hsuf, hm2⟩ := ih res h
      exact ⟨tail, hsuf.trans (List.suffix_cons c t), hm2⟩

theorem containsSub_append_self (n rest : List Char) : containsSub (n ++ rest) n = true := by
  cases n with
  | nil => simp [containsSub]
  | cons c n' =>
    have hpre : (c :: n').isPrefixOf (c :: (n' ++ rest)) = true := by
      rw [List.isPrefixOf_iff_prefix, ← List.cons_append]
      exact List.prefix_append _ _
    simp only [List.cons_append, containsSub, List.append_eq, hpre, Bool.true_or]

/-- A successful match of an ordered alternation is a successful match of one
    of its alternatives (at no more fuel). -/
theorem matchRe_alts_some :
    ∀ (l : List RE) (fuel : Nat) (s : List Char) (caps : Caps)
      (k : List Char → Caps → Option Caps) (res : Caps),
      matchRe fuel (alts l) s caps k = some res →
      l = [] ∨ ∃ r ∈ l, ∃ g, g ≤ fuel ∧ matchRe g r s caps k = some res := by
  intro l
  induction l with
  | nil => intro fuel s caps k res _; exact Or.inl rfl
  | cons r rest ih =>
    intro fuel s caps k res h
    cases rest with
    | nil => exact Or.inr ⟨r, List.mem_singleton.mpr rfl, fuel, Nat.le_refl _, h⟩
    | cons r2 rest2 =>
      cases fuel with
      | zero => simp [alts, matchRe] at h
      | succ f =>
        rw [show alts (r :: r2 :: rest2) = .alt r (alts (r2 :: rest2)) from rfl] at h
        simp only [matchRe] at h
        rcases orElse_eq_some h with h' | ⟨_, h'⟩
        · exact Or.inr ⟨r, List.mem_cons_self r _, f, Nat.le_succ f, h'⟩
        · rcases ih f s caps k res h' with hnil | ⟨r', hmem, g, hg, hm⟩
          · simp at hnil
          · exact Or.inr ⟨r', List.mem_cons_of_mem r hmem, g, hg.trans (Nat.le_succ f), hm⟩

/-- Whatever the method pattern captures case-folds to a vocabulary entry
    (for the cash-deposit alternative: the capture case-folds to a string
    containing "cash deposit"). -/
theorem methodRE_capture (fuel : Nat) (s : List Char) (res : Caps)
    (h : reScan fuel methodRE s = some res) :
    (capGet res 1).map Char.toLower = "upi".data ∨
    (capGet res 1).map Char.toLower = "debit card".data ∨
    (capGet res 1).map Char.toLower = "credit card".data ∨
    containsSub ((capGet res 1).map Char.toLower) "cash deposit".data = true ∨
    (capGet res 1).map Char.toLower = "net banking".data ∨
    (capGet res 1).map Char.toLower = "neft".data ∨
    (capGet res 1).map Char.toLower = "imps".data ∨
    (capGet res 1).map Char.toLower = "rtgs".data := by
  obtain ⟨tail, _, hm⟩ := reScan_some fuel methodRE s res h
  cases fuel with
  | zero => simp [matchRe] at hm
  | succ f =>
    rw [show methodRE = .group 1 (alts [istr "UPI", istr "Debit Card", istr "Credit Card",
          cat [istr "Cash Deposit", q01 (cat [spP, istr "Machine"])],
          istr "Net Banking", istr "NEFT", istr "IMPS", istr "RTGS"]) from rfl] at hm
    simp only [matchRe] at hm
    rcases matchRe_alts_some _ f tail [] _ res hm with hnil | ⟨r, hmem, g, _, hm2⟩
    · simp at hnil
    · have capFromIstr : ∀ (lit : String),
          matchRe g (istr lit) tail []
            (fun s' caps' => some ((1, tail.take (tail.length - s'.length)) :: caps')) = some res →
          (capGet res 1).map Char.toLower = lit.data.map Char.toLower := by
        intro lit hl
        obtain ⟨pre, s', htail, hlow, hk⟩ := matchRe_istr lit g tail [] _ res hl
        have hlen : tail.length - s'.length = pre.length := by
          rw [htail, List.length_append]; omega
        have hcap : tail.take (tail.length - s'.length) = pre := by
          rw [hlen, htail, List.take_left]
        rw [hcap] at hk
        have hres : res = [(1, pre)] := (Option.some.injEq _ _).mp hk.symm
        rw [hres]
        simpa [capGet] using hlow
      simp only [List.mem_cons, List.not_mem_nil, or_false] at hmem
      rcases hmem with rfl | rfl | rfl | rfl | rfl | rfl | rfl | rfl
      · exact Or.inl (by rw [capFromIstr _ hm2]; decide)
      · exact Or.inr (Or.inl (by rw [capFromIstr _ hm2]; decide))
      · exact Or.inr (Or.inr (Or.inl (by rw [capFromIstr _ hm2]; decide)))
      · -- the cash-deposit alternative
        refine Or.inr (Or.inr (Or.inr (Or.inl ?_)))
        cases g with
        | zero => simp [matchRe] at hm2
        | succ g1 =>
          rw [cat_cons] at hm2
          simp only [matchRe] at hm2
          obtain ⟨pre1, s1, htail, hlow1, hk1⟩ := matchRe_istr "Cash Deposit" g1 tail [] _ res hm2
          obtain ⟨s2, c2, hsuf, hk2⟩ := matchRe_some_suffix g1 _ s1 [] _ res hk1
          obtain ⟨mid, hmid⟩ := hsuf
          have htail2 : tail = (pre1 ++ mid) ++ s2 := by
            rw [htail, ← hmid, List.append_assoc]
          have hlen : tail.length - s2.length = (pre1 ++ mid).length := by
            rw [htail2, List.length_append]; omega
          have hcap : tail.take (tail.length - s2.length) = pre1 ++ mid := by
            rw [hlen, htail2, List.take_left]
          rw [hcap] at hk2
          have hres : res = (1, pre1 ++ mid) :: c2 := (Option.some.injEq _ _).mp hk2.symm
          have hcapget : capGet res 1 = pre1 ++ mid := by
            rw [hres]; simp [capGet]
          rw [hcapget, List.map_append, hlow1]
          have : "Cash Deposit".data.map Char.toLower = "cash deposit".data := by decide
          rw [this]
          exact containsSub_append_self _ _
      · exact Or.inr (Or.inr (Or.inr (Or.inr (Or.inl (by rw [capFromIstr _ hm2]; decide)))))
      · exact Or.inr (Or.inr (Or.inr (Or.inr (Or.inr (Or.inl (by rw [capFromIstr _ hm2]; decide))))))
      · exact Or.inr (Or.inr (Or.inr (Or.inr (Or.inr (Or.inr (Or.inl (by rw [capFromIstr _ hm2]; decide)))))))
      · exact Or.inr (Or.inr (Or.inr (Or.inr (Or.inr (Or.inr (Or.inr (by rw [capFromIstr _ hm2]; decide)))))))

/-! Frame lemmas: each extraction step writes only its own field. -/

theorem applyAmount_referenceNumber (nb : List Char) (t : ParsedTransaction) :
    (applyAmount nb t).referenceNumber = t.referenceNumber := by
  unfold applyAmount; cases reScan reFuel amountRE nb <;> rfl

theorem applyType_referenceNumber (nb : List Char) (t : ParsedTransaction) :
    (applyType nb t).referenceNumber = t.referenceNumber := by
  unfold applyType; cases reScan reFuel typeRE nb <;> rfl

theorem applyAccount_referenceNumber (nb : List Char) (t : ParsedTransaction) :
    (applyAccount nb t).referenceNumber = t.referenceNumber := by
  unfold applyAccount; cases reScan reFuel accountRE nb <;> rfl

theorem applyDateTime_referenceNumber (nb : List Char) (t : ParsedTransaction) :
    (applyDateTime nb t).referenceNumber = t.referenceNumber := by
  unfold applyDateTime; cases reScan reFuel dateRE nb <;> rfl

theorem applyMethod_referenceNumber (nb : List Char) (t : ParsedTransaction) :
    (applyMethod nb t).referenceNumber = t.referenceNumber := by
  unfold applyMethod
  split
  · dsimp only
    split <;> rfl
  · split <;> rfl

theorem applyDescription_referenceNumber (nb : List Char) (t : ParsedTransaction) :
    (applyDescription nb t).referenceNumber = t.referenceNumber := by
  unfold applyDescription
  split
  · cases reScan reFuel upiMerchantRE nb <;> rfl
  · split
    · cases reScan reFuel cardMerchantRE nb <;> rfl
    · split
      · cases reScan reFuel depositLocationRE nb <;> rfl
      · rfl

theorem applySubjectFallback_referenceNumber (subject : String) (t : ParsedTransaction) :
    (applySubjectFallback subject t).referenceNumber = t.referenceNumber := by
  unfold applySubjectFallback; split <;> rfl

theorem applyBalance_referenceNumber (nb : List Char) (t : ParsedTransaction) :
    (applyBalance nb t).referenceNumber = t.referenceNumber := by
  unfold applyBalance; cases reScan reFuel balanceRE nb <;> rfl

theorem applyAmount_method (nb : List Char) (t : ParsedTransaction) :
    (applyAmount nb t).method = t.method := by
  unfold applyAmount; cases reScan reFuel amountRE nb <;> rfl

theorem applyType_method (nb : List Char) (t : ParsedTransaction) :
    (applyType nb t).method = t.method := by
  unfold applyType; cases reScan reFuel typeRE nb <;> rfl

theorem applyAccount_method (nb : List Char) (t : ParsedTransaction) :
    (applyAccount nb t).method = t.method := by
  unfold applyAccount; cases reScan reFuel accountRE nb <;> rfl

theorem applyDateTime_method (nb : List Char) (t : ParsedTransaction) :
    (applyDateTime nb t).method = t.method := by
  unfold applyDateTime; cases reScan reFuel dateRE nb <;> rfl

theorem applyReference_method (nb : List Char) (t : ParsedTransaction) :
    (applyReference nb t).method = t.method := by
  unfold applyReference; cases reScan reFuel referenceNumberRE nb <;> rfl

theorem applyDescription_method (nb : List Char) (t : ParsedTransaction) :
    (applyDescription nb t).method = t.method := by
  unfold applyDescription
  split
  · cases reScan reFuel upiMerchantRE nb <;> rfl
  · split
    · cases reScan reFuel cardMerchantRE nb <;> rfl
    · split
      · cases reScan reFuel depositLocationRE nb <;> rfl
      · rfl

theorem applySubjectFallback_method (subject : String) (t : ParsedTransaction) :
    (applySubjectFallback subject t).method = t.method := by
  unfold applySubjectFallback; split <;> rfl

theorem applyBalance_method (nb : List Char) (t : ParsedTransaction) :
    (applyBalance nb t).method = t.method := by
  unfold applyBalance; cases reScan reFuel balanceRE nb <;> rfl

/-- The reference number after extraction: the capture when the pattern
    matched, the empty initial value otherwise. -/
theorem extractFields_referenceNumber (body subject : String) (rd : Int) :
    (extractFields body subject rd).referenceNumber =
      (match reScan reFuel referenceNumberRE (normalizeBody body) with
       | some caps => String.mk (capGet caps 1)
       | none => "") := by
  unfold extractFields
  rw [applyBalance_referenceNumber, applySubjectFallback_referenceNumber,
      applyDescription_referenceNumber]
  unfold applyReference
  cases reScan reFuel referenceNumberRE (normalizeBody body) with
  | none =>
    rw [applyMethod_referenceNumber, applyDateTime_referenceNumber,
        applyAccount_referenceNumber, applyType_referenceNumber, applyAmount_referenceNumber]
    rfl
  | some caps => rfl

/-- The method after extraction, as decided by the method block. -/
theorem extractFields_method (body subject : String) (rd : Int) :
    (extractFields body subject rd).method =
      (match reScan reFuel methodRE (normalizeBody body) with
       | some caps =>
         if containsSub ((capGet caps 1).map Char.toLower) "cash deposit".data then "Cash Deposit"
         else String.mk (capGet caps 1)
       | none =>
         if containsSub ((normalizeBody body).map Char.toLower) "upi".data then "UPI"
         else "Other") := by
  unfold extractFields
  rw [applyBalance_method, applySubjectFallback_method, applyDescription_method,
      applyReference_method]
  unfold applyMethod
  cases h : reScan reFuel methodRE (normalizeBody body) with
  | none =>
    simp only [h]
    split
    · rfl
    · rw [applyDateTime_method, applyAccount_method, applyType_method, applyAmount_method]
      rfl
  | some caps =>
    simp only [h]
    dsimp only
    split <;> rfl

/-! Claim theorems about the parser. -/

/-- The spec's example body (C4), taken verbatim. -/
def hdfcExampleBody : String :=
  "Rs. 500 debited from account ending 1234 ... via UPI to VPA merchant@upi MERCHANT NAME on 12-01-2026 at 18:51 ... reference number is ABC123 ... available balance is Rs. 10,000"

/-- A body carrying an amount and an account suffix but no direction word. -/
def noDirectionBody : String := "Rs. 500 sent from account ending 1234"

/-- C1: the claim says a body whose direction is missing must be rejected with
    the fixed reason; the code instead accepts it, because `transaction.type`
    is initialised to the truthy default "Debit", so the acceptance gate's
    `!transaction.type` test can never fire. On a body with an amount and an
    account but no "credited"/"debited" token, parsing succeeds with the
    defaulted direction. -/
theorem C1_missing_direction_is_accepted :
    reScan reFuel typeRE (normalizeBody noDirectionBody) = none ∧
    (parseHDFCEmail noDirectionBody "" 0 "id1").success = true ∧
    (parseHDFCEmail noDirectionBody "" 0 "id1").transaction.map (fun t => t.type) = some "Debit" ∧
    (parseHDFCEmail noDirectionBody "" 0 "id1").error = none := by
  exact ⟨by decide, by decide, by decide, by decide⟩

/-- C4: on the spec's example body — whatever the subject, received instant
    and message id — parsing succeeds and yields exactly the claimed fields. -/
theorem C4_example_body_parses (subject : String) (rd : Int) (id : String) :
    (parseHDFCEmail hdfcExampleBody subject rd id).success = true ∧
    (parseHDFCEmail hdfcExampleBody subject rd id).transaction.map (fun t => t.amount)
      = some (.val 500) ∧
    (parseHDFCEmail hdfcExampleBody subject rd id).transaction.map (fun t => t.type)
      = some "Debit" ∧
    (parseHDFCEmail hdfcExampleBody subject rd id).transaction.map (fun t => t.method)
      = some "UPI" ∧
    (parseHDFCEmail hdfcExampleBody subject rd id).transaction.map (fun t => t.account)
      = some "1234" ∧
    (parseHDFCEmail hdfcExampleBody subject rd id).transaction.map (fun t => t.description)
      = some "MERCHANT NAME (merchant@upi)" ∧
    (parseHDFCEmail hdfcExampleBody subject rd id).transaction.map (fun t => t.referenceNumber)
      = some "ABC123" ∧
    (parseHDFCEmail hdfcExampleBody subject rd id).transaction.map (fun t => t.dateTime)
      = some "12/01/2026 6:51 PM" ∧
    (parseHDFCEmail hdfcExampleBody subject rd id).transaction.map (fun t => t.availableBalance)
      = some (.num (.val 10000)) := by
  exact ⟨rfl, rfl, rfl, rfl, rfl, rfl, rfl, rfl, rfl⟩

/-- C5: every accepted transaction has a non-empty reference number, and when
    the body carried no reference token the reference is exactly
    `EMAIL_<message id>`. -/
theorem C5_reference_number_nonempty_fallback (body subject : String) (rd : Int) (id : String)
    (tx : ParsedTransaction)
    (h : (parseHDFCEmail body subject rd id).transaction = some tx) :
    tx.referenceNumber ≠ "" ∧
    (reScan reFuel referenceNumberRE (normalizeBody body) = none →
      tx.referenceNumber = "EMAIL_" ++ id) := by
  have hEmail : ("EMAIL_" ++ id) ≠ "" := by
    intro hcontra
    have := congrArg String.data hcontra
    rw [String.data_append] at this
    simp at this
  simp only [parseHDFCEmail] at h
  split at h
  · simp at h
  · have htx := Option.some.inj h
    constructor
    · rw [← htx]
      split
      · exact hEmail
      case isFalse hne =>
        intro hcontra
        rw [hcontra] at hne
        simp at hne
    · intro hnone
      have href : (extractFields body subject rd).referenceNumber = "" := by
        rw [extractFields_referenceNumber body subject rd, hnone]
      rw [← htx]
      split
      · rfl
      case isFalse hne => rw [href] at hne; simp at hne

/-- A found substring occurs at some drop offset. -/
theorem containsSub_exists_drop :
    ∀ (l n : List Char), containsSub l n = true → ∃ i, n.isPrefixOf (l.drop i) = true := by
  intro l
  induction l with
  | nil =>
    intro n h
    cases n with
    | nil => exact ⟨0, rfl⟩
    | cons a as => simp [containsSub] at h
  | cons c t ih =>
    intro n h
    cases n with
    | nil => exact ⟨0, rfl⟩
    | cons a as =>
      rw [containsSub] at h
      · rcases Bool.or_eq_true _ _ |>.mp h with h1 | h2
        · exact ⟨0, h1⟩
        · obtain ⟨i, hi⟩ := ih (a :: as) h2
          exact ⟨i + 1, hi⟩
      · simp

theorem drop_map_comm (f : Char → Char) :
    ∀ (n : Nat) (l : List Char), (l.map f).drop n = (l.drop n).map f := by
  intro n
  induction n with
  | zero => intro l; rfl
  | succ n ih =>
    intro l
    cases l with
    | nil => rfl
    | cons c t => exact ih t

/-- Completeness of the matcher on case-insensitive literals: when the input
    case-folds to start with the literal, the match consumes it and runs the
    continuation. -/
theorem matchRe_ichr_success :
    ∀ (cs : List Char) (fuel : Nat) (s : List Char) (caps : Caps)
      (k : List Char → Caps → Option Caps),
      2 * cs.length + 1 ≤ fuel →
      ((cs.map Char.toLower).isPrefixOf (s.map Char.toLower)) = true →
      matchRe fuel (cat (cs.map ichr)) s caps k = k (s.drop cs.length) caps := by
  intro cs
  induction cs with
  | nil =>
    intro fuel s caps k hf _
    cases fuel with
    | zero => simp at hf
    | succ f => rfl
  | cons c cs ih =>
    intro fuel s caps k hf hp
    simp only [List.length_cons] at hf
    cases fuel with
    | zero => omega
    | succ f =>
      cases f with
      | zero => omega
      | succ g =>
        cases s with
        | nil => simp [List.isPrefixOf] at hp
        | cons s0 s' =>
          simp only [List.map_cons, List.isPrefixOf, Bool.and_eq_true] at hp
          obtain ⟨h1, h2⟩ := hp
          rw [List.map_cons, cat_cons]
          simp only [matchRe]
          rw [if_pos (by rw [eq_of_beq h1]; exact beq_self_eq_true _)]
          exact ih (g + 1) s' caps k (by omega) h2

/-- The method pattern matches any input that case-folds to start with "upi":
    its first alternative is the case-insensitive literal UPI. -/
theorem methodRE_match_of_upi_at (fuel : Nat) (hf : 12 ≤ fuel) (t : List Char)
    (hp : ("UPI".data.map Char.toLower).isPrefixOf (t.map Char.toLower) = true) :
    ∃ res, matchRe fuel methodRE t [] (fun _ caps => some caps) = some res := by
  cases fuel with
  | zero => omega
  | succ f =>
    cases f with
    | zero => omega
    | succ g =>
      rw [show methodRE = RE.group 1 (RE.alt (istr "UPI")
            (alts [istr "Debit Card", istr "Credit Card",
                   cat [istr "Cash Deposit", q01 (cat [spP, istr "Machine"])],
                   istr "Net Banking", istr "NEFT", istr "IMPS", istr "RTGS"])) from rfl]
      simp only [matchRe]
      rw [show istr "UPI" = cat ("UPI".data.map ichr) from rfl]
      rw [matchRe_ichr_success "UPI".data g t [] _
            (by have h3 : ("UPI".data.length) = 3 := rfl; omega) hp]
      exact ⟨_, rfl⟩

/-- A scan that fails fails at every start position. -/
theorem reScan_none_all (fuel : Nat) (r : RE) :
    ∀ (s : List Char), reScan fuel r s = none →
      ∀ i, matchRe fuel r (s.drop i) [] (fun _ caps => some caps) = none := by
  intro s
  induction s with
  | nil =>
    intro h i
    rw [List.drop_nil]
    rw [reScan] at h
    exact h
  | cons c t ih =>
    intro h i
    rw [reScan] at h
    cases hm : matchRe fuel r (c :: t) [] (fun _ caps => some caps) with
    | some caps => rw [hm] at h; exact absurd h (by simp)
    | none =>
      rw [hm] at h
      cases i with
      | zero => exact hm
      | succ i => exact ih h i

/-- The literal-"upi" fallback of the method block is unreachable: a body
    containing "upi" (case-folded) always matches the method pattern. -/
theorem methodRE_scan_of_upi (s : List Char)
    (h : containsSub (s.map Char.toLower) "upi".data = true) :
    reScan reFuel methodRE s ≠ none := by
  intro hnone
  obtain ⟨i, hpre⟩ := containsSub_exists_drop _ _ h
  rw [drop_map_comm] at hpre
  have hp : ("UPI".data.map Char.toLower).isPrefixOf ((s.drop i).map Char.toLower) = true := by
    rw [show "UPI".data.map Char.toLower = "upi".data from by decide]
    exact hpre
  obtain ⟨res, hres⟩ := methodRE_match_of_upi_at reFuel (by decide) (s.drop i) hp
  rw [reScan_none_all reFuel methodRE s hnone i] at hres
  exact absurd hres (by simp)

/-- The closed method vocabulary, case-folded. -/
def methodVocabLower : List (List Char) :=
  ["upi", "debit card", "credit card", "cash deposit", "net banking",
   "neft", "imps", "rtgs", "other"].map String.toList

/-- C9 (amended): every accepted transaction's method case-folds to the closed
    vocabulary (matching is case-insensitive but the stored method keeps the
    body's letter case); any match whose capture case-folds to contain
    "cash deposit" — including "Cash Deposit Machine" — collapses to exactly
    "Cash Deposit"; when the method pattern does not match anywhere, the
    method is exactly "Other"; and the literal-"upi" fallback branch is
    unreachable, since a body containing "upi" always matches the pattern. -/
theorem C9_method_vocabulary (body subject : String) (rd : Int) (id : String)
    (tx : ParsedTransaction)
    (h : (parseHDFCEmail body subject rd id).transaction = some tx) :
    tx.method.data.map Char.toLower ∈ methodVocabLower ∧
    (∀ caps, reScan reFuel methodRE (normalizeBody body) = some caps →
      containsSub ((capGet caps 1).map Char.toLower) "cash deposit".data = true →
      tx.method = "Cash Deposit") ∧
    (reScan reFuel methodRE (normalizeBody body) = none → tx.method = "Other") ∧
    (∀ b : String, containsSub ((normalizeBody b).map Char.toLower) "upi".data = true →
      reScan reFuel methodRE (normalizeBody b) ≠ none) := by
  have hmethod : tx.method = (extractFields body subject rd).method := by
    simp only [parseHDFCEmail] at h
    split at h
    · simp at h
    · have htx := Option.some.inj h
      rw [← htx]
      split <;> rfl
  have hvocab : ∀ l : List Char,
      l = "upi".data ∨ l = "debit card".data ∨ l = "credit card".data ∨
      l = "cash deposit".data ∨ l = "net banking".data ∨ l = "neft".data ∨
      l = "imps".data ∨ l = "rtgs".data ∨ l = "other".data ∨ l = "upi".data →
      l ∈ methodVocabLower := by
    intro l hl
    rcases hl with rfl | rfl | rfl | rfl | rfl | rfl | rfl | rfl | rfl | rfl <;> decide
  rw [hmethod, extractFields_method body subject rd]
  refine ⟨?_, ?_, ?_, ?_⟩
  · cases hscan : reScan reFuel methodRE (normalizeBody body) with
    | none =>
      by_cases hu : containsSub ((normalizeBody body).map Char.toLower) "upi".data = true
      · rw [if_pos hu]
        exact hvocab _ (by decide)
      · rw [if_neg hu]
        exact hvocab _ (by decide)
    | some caps =>
      dsimp only
      by_cases hc : containsSub ((capGet caps 1).map Char.toLower) "cash deposit".data = true
      · rw [if_pos hc]
        exact hvocab _ (by decide)
      · rw [if_neg hc]
        apply hvocab
        rcases methodRE_capture reFuel (normalizeBody body) caps hscan with
          hd | hd | hd | hd | hd | hd | hd | hd
        · exact Or.inl hd
        · exact Or.inr (Or.inl hd)
        · exact Or.inr (Or.inr (Or.inl hd))
        · exact absurd hd hc
        · exact Or.inr (Or.inr (Or.inr (Or.inr (Or.inl hd))))
        · exact Or.inr (Or.inr (Or.inr (Or.inr (Or.inr (Or.inl hd)))))
        · exact Or.inr (Or.inr (Or.inr (Or.inr (Or.inr (Or.inr (Or.inl hd))))))
        · exact Or.inr (Or.inr (Or.inr (Or.inr (Or.inr (Or.inr (Or.inr (Or.inl hd)))))))
  · intro caps hscan hcd
    rw [hscan]
    dsimp only
    rw [if_pos hcd]
  · intro hnone
    by_cases hu : containsSub ((normalizeBody body).map Char.toLower) "upi".data = true
    · exact absurd hnone (methodRE_scan_of_upi _ hu)
    · rw [hnone]
      dsimp only
      rw [if_neg hu]
  · intro b hb
    exact methodRE_scan_of_upi _ hb

/-- A body whose method token appears in lowercase ("via neft"). -/
def lowercaseMethodBody : String := "Rs. 500 debited from account ending 1234 via neft"

/-- A body whose method pattern match is "Cash Deposit Machine". -/
def cashDepositBody : String :=
  "Rs. 500 debited from account ending 1234 Cash Deposit Machine"

/-- C9 counterexample: the stored method keeps the body's letter case, so it
    can fall outside the closed set read as exact strings — here "neft". -/
theorem C9_counterexample_lowercase_method :
    (parseHDFCEmail lowercaseMethodBody "" 0 "id2").transaction.map (fun t => t.method)
      = some "neft" ∧
    ("neft" ∈ ["UPI", "Debit Card", "Credit Card", "Cash Deposit", "Net Banking",
               "NEFT", "IMPS", "RTGS", "Other"]) = False := by
  exact ⟨by decide, by simp⟩

/-! Deduplication: set semantics of `reconcile`. -/

/-- Modelled from the claim's words: a candidate is appended iff its reference
    number is not in the set built from the column and from all earlier
    candidates of the same batch. -/
def reconcileSpec (col : List String) : List String → List ParsedTransaction → List ParsedTransaction
  | _, [] => []
  | earlier, c :: cs =>
    if c.referenceNumber ∈ col ∨ c.referenceNumber ∈ earlier then
      reconcileSpec col (c.referenceNumber :: earlier) cs
    else c :: reconcileSpec col (c.referenceNumber :: earlier) cs

theorem reconcile_congr :
    ∀ (cands : List ParsedTransaction) (s₁ s₂ : List String),
      (∀ r, r ∈ s₁ ↔ r ∈ s₂) → reconcile s₁ cands = reconcile s₂ cands := by
  intro cands
  induction cands with
  | nil => intro _ _ _; rfl
  | cons c cs ih =>
    intro s₁ s₂ hmem
    unfold reconcile
    by_cases h1 : c.referenceNumber ∈ s₁
    · rw [if_pos h1, if_pos ((hmem _).mp h1)]
      exact ih s₁ s₂ hmem
    · rw [if_neg h1, if_neg (fun h2 => h1 ((hmem _).mpr h2))]
      rw [ih (c.referenceNumber :: s₁) (c.referenceNumber :: s₂)
        (by intro r; simp only [List.mem_cons]; rw [hmem r])]

theorem reconcile_eq_spec_aux :
    ∀ (cands : List ParsedTransaction) (col earlier seen : List String),
      (∀ r, r ∈ seen ↔ (r ∈ col ∨ r ∈ earlier)) →
      reconcile seen cands = reconcileSpec col earlier cands := by
  intro cands
  induction cands with
  | nil => intro _ _ _ _; rfl
  | cons c cs ih =>
    intro col earlier seen hinv
    unfold reconcile reconcileSpec
    by_cases h1 : c.referenceNumber ∈ seen
    · rw [if_pos h1, if_pos ((hinv _).mp h1)]
      have step : reconcile seen cs = reconcile (c.referenceNumber :: seen) cs := by
        apply reconcile_congr
        intro r
        simp only [List.mem_cons]
        constructor
        · exact Or.inr
        · rintro (rfl | hr)
          · exact h1
          · exact hr
      rw [step]
      apply ih
      intro r
      simp only [List.mem_cons]
      rw [hinv r]
      tauto
    · rw [if_neg h1, if_neg (fun h2 => h1 ((hinv _).mpr h2))]
      rw [ih col (c.referenceNumber :: earlier) (c.referenceNumber :: seen)
        (by intro r; simp only [List.mem_cons]; rw [hinv r]; tauto)]

theorem reconcile_all_seen :
    ∀ (cands : List ParsedTransaction) (seen : List String),
      (∀ c ∈ cands, c.referenceNumber ∈ seen) → reconcile seen cands = [] := by
  intro cands
  induction cands with
  | nil => intro _ _; rfl
  | cons c cs ih =>
    intro seen hall
    unfold reconcile
    rw [if_pos (hall c (List.mem_cons_self c cs))]
    exact ih seen (fun d hd => hall d (List.mem_cons_of_mem c hd))

theorem reconcile_covers :
    ∀ (cands : List ParsedTransaction) (seen : List String) (c : ParsedTransaction),
      c ∈ cands →
      c.referenceNumber ∈ seen ∨
        c.referenceNumber ∈ (reconcile seen cands).map (fun t => t.referenceNumber) := by
  intro cands
  induction cands with
  | nil => intro _ _ h; simp at h
  | cons c0 cs ih =>
    intro seen c hmem
    unfold reconcile
    rcases List.mem_cons.mp hmem with rfl | htail
    · by_cases h0 : c.referenceNumber ∈ seen
      · exact Or.inl h0
      · rw [if_neg h0]
        exact Or.inr (by simp)
    · by_cases h0 : c0.referenceNumber ∈ seen
      · rw [if_pos h0]
        exact ih seen c htail
      · rw [if_neg h0]
        rcases ih (c0.referenceNumber :: seen) c htail with hs | hr
        · rcases List.mem_cons.mp hs with heq | hseen
          · exact Or.inr (by simp [heq])
          · exact Or.inl hseen
        · exact Or.inr (by simp [hr])

theorem reconcile_nodup_and_fresh :
    ∀ (cands : List ParsedTransaction) (seen : List String),
      ((reconcile seen cands).map (fun t => t.referenceNumber)).Nodup ∧
      ∀ r ∈ (reconcile seen cands).map (fun t => t.referenceNumber), r ∉ seen := by
  intro cands
  induction cands with
  | nil => intro _; exact ⟨List.nodup_nil, by simp [reconcile]⟩
  | cons c cs ih =>
    intro seen
    unfold reconcile
    by_cases h0 : c.referenceNumber ∈ seen
    · rw [if_pos h0]
      exact ih seen
    · rw [if_neg h0]
      obtain ⟨hnd, hfresh⟩ := ih (c.referenceNumber :: seen)
      constructor
      · rw [List.map_cons, List.nodup_cons]
        refine ⟨fun hin => ?_, hnd⟩
        exact hfresh _ hin (List.mem_cons_self _ _)
      · intro r hr
        rw [List.map_cons] at hr
        rcases List.mem_cons.mp hr with heq | htail
        · rw [heq]; exact h0
        · intro hseen
          exact hfresh r htail (List.mem_cons_of_mem _ hseen)

/-- C2: deduplication has set semantics. A candidate survives iff its
    reference is not in the set built from the pre-existing column and the
    earlier candidates of the batch (`reconcileSpec`, written from the claim);
    survivors carry pairwise-distinct references (so of two batch-mates with
    one reference only the first is appended) and none that was already in the
    column; and a second run over the column extended by the first run's
    survivors appends nothing. -/
theorem C2_dedup_set_semantics :
    (∀ (col : List String) (cands : List ParsedTransaction),
      reconcile col cands = reconcileSpec col [] cands) ∧
    (∀ (col : List String) (cands : List ParsedTransaction),
      ((reconcile col cands).map (fun t => t.referenceNumber)).Nodup ∧
      ∀ r ∈ (reconcile col cands).map (fun t => t.referenceNumber), r ∉ col) ∧
    (∀ (col : List String) (cands : List ParsedTransaction),
      reconcile (col ++ (reconcile col cands).map (fun t => t.referenceNumber)) cands = []) := by
  refine ⟨?_, ?_, ?_⟩
  · intro col cands
    exact reconcile_eq_spec_aux cands col [] col (by simp)
  · intro col cands
    exact reconcile_nodup_and_fresh cands col
  · intro col cands
    apply reconcile_all_seen
    intro c hc
    rcases reconcile_covers cands col c hc with hs | hr
    · exact List.mem_append_left _ hs
    · exact List.mem_append_right _ hr

/-! Watermark lemmas and the orchestrator claims. -/

/-- Comparison on optional watermarks: an absent watermark precedes anything,
    and a present one never becomes absent or smaller. -/
def wmLE (a b : Option Int) : Bool :=
  match a, b with
  | none, _ => true
  | some w, some w' => decide (w ≤ w')
  | some _, none => false

theorem wmLE_refl (a : Option Int) : wmLE a a = true := by
  cases a with
  | none => rfl
  | some w => simp [wmLE]

theorem foldl_latStep_some :
    ∀ (msgs : List Msg) (acc : Option Int) (L : Int),
      msgs.foldl latStep acc = some L →
      (acc = some L ∨ ∃ m ∈ msgs, m.fetchOk = true ∧ m.received = L) ∧
      (∀ m ∈ msgs, m.fetchOk = true → m.received ≤ L) ∧
      (∀ a, acc = some a → a ≤ L) := by
  intro msgs
  induction msgs with
  | nil =>
    intro acc L h
    rw [List.foldl_nil] at h
    exact ⟨Or.inl h, by simp, fun a ha => by rw [h] at ha; exact le_of_eq (Option.some.inj ha).symm⟩
  | cons m ms ih =>
    intro acc L h
    rw [List.foldl_cons] at h
    obtain ⟨hsrc, hall, hacc⟩ := ih (latStep acc m) L h
    by_cases hok : m.fetchOk = true
    · have hstep : ∀ a, latStep acc m = some a → a ≤ L := hacc
      cases hc : acc with
      | none =>
        have hla : latStep acc m = some m.received := by simp [latStep, hok, hc]
        refine ⟨?_, ?_, ?_⟩
        · rcases hsrc with hl | ⟨m', hm', ho', hr'⟩
          · rw [hla] at hl
            exact Or.inr ⟨m, List.mem_cons_self m ms, hok, Option.some.inj hl⟩
          · exact Or.inr ⟨m', List.mem_cons_of_mem m hm', ho', hr'⟩
        · intro m' hm' ho'
          rcases List.mem_cons.mp hm' with rfl | htail
          · exact hstep m'.received (by simp [latStep, ho', hc])
          · exact hall m' htail ho'
        · intro a ha; simp at ha
      | some l =>
        by_cases hgt : m.received > l
        · have hla : latStep acc m = some m.received := by
            simp [latStep, hok, hc, hgt]
          refine ⟨?_, ?_, ?_⟩
          · rcases hsrc with hl | ⟨m', hm', ho', hr'⟩
            · rw [hla] at hl
              exact Or.inr ⟨m, List.mem_cons_self m ms, hok, Option.some.inj hl⟩
            · exact Or.inr ⟨m', List.mem_cons_of_mem m hm', ho', hr'⟩
          · intro m' hm' ho'
            rcases List.mem_cons.mp hm' with rfl | htail
            · exact hstep m'.received hla
            · exact hall m' htail ho'
          · intro a ha
            have hml := hstep m.received hla
            have := Option.some.inj ha
            omega
        · have hla : latStep acc m = some l := by
            simp [latStep, hok, hc, hgt]
          refine ⟨?_, ?_, ?_⟩
          · rcases hsrc with hl | ⟨m', hm', ho', hr'⟩
            · rw [hla] at hl
              exact Or.inl hl
            · exact Or.inr ⟨m', List.mem_cons_of_mem m hm', ho', hr'⟩
          · intro m' hm' ho'
            rcases List.mem_cons.mp hm' with rfl | htail
            · have hlL := hstep l hla
              omega
            · exact hall m' htail ho'
          · intro a ha
            have hlL := hstep l hla
            have := Option.some.inj ha
            omega
    · have hla : latStep acc m = acc := by
        simp [latStep, hok]
      rw [hla] at hsrc hacc
      refine ⟨?_, ?_, hacc⟩
      · rcases hsrc with hl | ⟨m', hm', ho', hr'⟩
        · exact Or.inl hl
        · exact Or.inr ⟨m', List.mem_cons_of_mem m hm', ho', hr'⟩
      · intro m' hm' ho'
        rcases List.mem_cons.mp hm' with rfl | htail
        · exact absurd ho' hok
        · exact hall m' htail ho'

theorem foldl_latStep_none :
    ∀ (msgs : List Msg) (acc : Option Int),
      msgs.foldl latStep acc = none ↔ (acc = none ∧ ∀ m ∈ msgs, m.fetchOk = false) := by
  intro msgs
  induction msgs with
  | nil => intro acc; simp
  | cons m ms ih =>
    intro acc
    rw [List.foldl_cons, ih]
    constructor
    · rintro ⟨hstep, hall⟩
      by_cases hok : m.fetchOk = true
      · exfalso
        cases hc : acc with
        | none => rw [hc] at hstep; simp [latStep, hok] at hstep
        | some l =>
          rw [hc] at hstep
          by_cases hgt : m.received > l <;> simp [latStep, hok, hgt] at hstep
      · have hacc : latStep acc m = acc := by simp [latStep, hok]
        rw [hacc] at hstep
        refine ⟨hstep, fun m' hm' => ?_⟩
        rcases List.mem_cons.mp hm' with rfl | htail
        · exact Bool.not_eq_true _ |>.mp hok
        · exact hall m' htail
    · rintro ⟨hacc, hall⟩
      have hok : m.fetchOk = false := hall m (List.mem_cons_self m ms)
      have hstep : latStep acc m = acc := by simp [latStep, hok]
      exact ⟨by rw [hstep, hacc], fun m' hm' => hall m' (List.mem_cons_of_mem m hm')⟩

/-- C3: the watermark is monotone non-decreasing over any cycle whose batch
    respects the watermark-derived query lower bound; on a completed cycle it
    becomes the maximum received instant over the processed messages (rejected
    ones included, since `batchLatest` never looks at parse outcomes) when one
    exists and is otherwise unchanged; `batchLatest` is that maximum. -/
theorem C3_watermark_monotone_max :
    (∀ (u : UserState) (led : Ledger) (e : Env),
      (∀ m ∈ e.msgs, m.fetchOk = true →
        wmLE u.last_processed_email_timestamp (some m.received) = true) →
      wmLE u.last_processed_email_timestamp
        (processUser u led e).1.last_processed_email_timestamp = true) ∧
    (∀ (u : UserState) (led : Ledger) (e : Env),
      u.google_sheet_id.isNone = false → u.is_processing = false →
      e.decryptOk = true → e.tokenOk = true → e.appendFault = false →
      (processUser u led e).1.last_processed_email_timestamp =
        (batchLatest e.msgs).orElse (fun _ => u.last_processed_email_timestamp)) ∧
    (∀ (msgs : List Msg) (L : Int), batchLatest msgs = some L →
      (∃ m ∈ msgs, m.fetchOk = true ∧ m.received = L) ∧
      (∀ m ∈ msgs, m.fetchOk = true → m.received ≤ L)) ∧
    (∀ msgs : List Msg, batchLatest msgs = none ↔ ∀ m ∈ msgs, m.fetchOk = false) := by
  have hmax : ∀ (msgs : List Msg) (L : Int), batchLatest msgs = some L →
      (∃ m ∈ msgs, m.fetchOk = true ∧ m.received = L) ∧
      (∀ m ∈ msgs, m.fetchOk = true → m.received ≤ L) := by
    intro msgs L h
    obtain ⟨hsrc, hall, _⟩ := foldl_latStep_some msgs none L h
    rcases hsrc with hnone | hex
    · simp at hnone
    · exact ⟨hex, hall⟩
  refine ⟨?_, ?_, hmax, ?_⟩
  · intro u led e hq
    unfold processUser
    by_cases h1 : u.google_sheet_id.isNone = true
    case pos => rw [if_pos h1]; exact wmLE_refl _
    rw [if_neg h1]
    by_cases h2 : u.is_processing = true
    case pos => rw [if_pos h2]; exact wmLE_refl _
    rw [if_neg h2]
    try dsimp only
    by_cases h3 : e.decryptOk = true
    case neg => rw [if_pos (by simp [h3])]; exact wmLE_refl _
    rw [if_neg (by simp [h3])]
    by_cases h4 : e.tokenOk = true
    case neg => rw [if_pos (by simp [h4])]; exact wmLE_refl _
    rw [if_neg (by simp [h4])]
    by_cases h5 : e.msgs.isEmpty = true
    case pos => rw [if_pos h5]; exact wmLE_refl _
    rw [if_neg h5]
    try dsimp only
    by_cases h7 : e.appendFault = true
    case pos => rw [if_pos h7]; exact wmLE_refl _
    rw [if_neg h7]
    try dsimp only
    cases hl : batchLatest e.msgs with
    | none => exact wmLE_refl _
    | some L =>
      cases hw : u.last_processed_email_timestamp with
      | none => rfl
      | some w =>
        obtain ⟨⟨m, hm, hok, hrec⟩, _⟩ := hmax e.msgs L hl
        have hle := hq m hm hok
        rw [hw] at hle
        have hwm : w ≤ m.received := by simpa [wmLE] using hle
        show wmLE (some w) (some L) = true
        simp only [wmLE, decide_eq_true_eq]
        omega
  · intro u led e h1 h2 h3 h4 h5
    unfold processUser
    rw [if_neg (by simp [h1]), if_neg (by simp [h2]), if_neg (by simp [h3]),
        if_neg (by simp [h4])]
    by_cases hempty : e.msgs.isEmpty = true
    · rw [if_pos hempty]
      have : e.msgs = [] := List.isEmpty_iff.mp hempty
      rw [this]
      rfl
    · rw [if_neg hempty, if_neg (by simp [h5])]
  · intro msgs
    unfold batchLatest
    rw [foldl_latStep_none]
    simp

/-- A concrete idle, active account with a configured sheet. -/
def wUser : UserState :=
  { google_sheet_id := some "sheet1", last_processed_email_timestamp := some 100,
    is_processing := false, is_active := true, missed_emails := [], last_sync_time := none }

def wLedger : Ledger := { refColumn := ["R1"], rows := [], metadataB2 := none }

/-- An environment with one fetchable message after the watermark. -/
def wEnvOne : Env :=
  { decryptOk := true, tokenOk := true, readOk := true,
    msgs := [{ id := "m1", subject := "s", body := "b", received := 200, fetchOk := true }],
    appendFault := false, metaOk := true, now := 600 }

theorem C3_witness :
    wmLE wUser.last_processed_email_timestamp
      (processUser wUser wLedger wEnvOne).1.last_processed_email_timestamp = true ∧
    (processUser wUser wLedger wEnvOne).1.last_processed_email_timestamp =
      (batchLatest wEnvOne.msgs).orElse (fun _ => wUser.last_processed_email_timestamp) := by
  exact ⟨C3_watermark_monotone_max.1 wUser wLedger wEnvOne (by decide),
         C3_watermark_monotone_max.2.1 wUser wLedger wEnvOne rfl rfl rfl rfl rfl⟩

/-- C10: a cycle that retrieved no messages writes only the busy flag and the
    last-sync instant; watermark, rejected log, active flag and the ledger are
    untouched and nothing is appended. -/
theorem C10_no_messages_frame (u : UserState) (led : Ledger) (e : Env)
    (h1 : u.google_sheet_id.isNone = false) (h2 : u.is_processing = false)
    (h3 : e.decryptOk = true) (h4 : e.tokenOk = true) (h5 : e.msgs = []) :
    processUser u led e =
      ({ u with is_processing := false, last_sync_time := some e.now }, led, some (0, 0)) := by
  unfold processUser
  rw [if_neg (by simp [h1]), if_neg (by simp [h2]), if_neg (by simp [h3]),
      if_neg (by simp [h4]), if_pos (by simp [h5])]

/-- An environment that retrieves no messages. -/
def wEnvEmpty : Env :=
  { decryptOk := true, tokenOk := true, readOk := true, msgs := [],
    appendFault := false, metaOk := true, now := 700 }

theorem C10_witness :
    processUser wUser wLedger wEnvEmpty =
      ({ wUser with is_processing := false, last_sync_time := some 700 }, wLedger, some (0, 0)) :=
  C10_no_messages_frame wUser wLedger wEnvEmpty rfl rfl rfl rfl rfl

/-- C8: an account-level fault (here: at the ledger-append boundary) is caught
    at the per-account boundary — the busy flag is cleared, every other
    account-state field including the active flag is left as it was, the
    ledger is untouched and the result is a failure for that account only —
    and the multi-account cycle's per-account results are exactly the
    independent `processUser` outcomes, so every remaining account is still
    processed. -/
theorem C8_account_fault_isolated :
    (∀ (u : UserState) (led : Ledger) (e : Env),
      u.google_sheet_id.isNone = false → u.is_processing = false →
      e.decryptOk = true → e.tokenOk = true → e.appendFault = true →
      e.msgs.isEmpty = false →
      processUser u led e = ({ u with is_processing := false }, led, none)) ∧
    (∀ (accounts : List (UserState × Ledger × Env)) (i : Nat),
      (runCron accounts).1.get? i =
        (accounts.get? i).map (fun a => processUser a.1 a.2.1 a.2.2)) := by
  constructor
  · intro u led e h1 h2 h3 h4 h5 h6
    unfold processUser
    rw [if_neg (by simp [h1]), if_neg (by simp [h2]), if_neg (by simp [h3]),
        if_neg (by simp [h4]), if_neg (by simp [h6]), if_pos (by simp [h5])]
  · intro accounts i
    simp [runCron, List.getElem?_map]

/-- An environment whose ledger append faults. -/
def wEnvFault : Env :=
  { decryptOk := true, tokenOk := true, readOk := true,
    msgs := [{ id := "m1", subject := "s", body := "b", received := 200, fetchOk := true }],
    appendFault := true, metaOk := true, now := 800 }

theorem C8_witness :
    processUser wUser wLedger wEnvFault = ({ wUser with is_processing := false }, wLedger, none) ∧
    (runCron [(wUser, wLedger, wEnvFault)]).1.get? 0 =
      some (processUser wUser wLedger wEnvFault) := by
  exact ⟨C8_account_fault_isolated.1 wUser wLedger wEnvFault rfl rfl rfl rfl rfl rfl,
         C8_account_fault_isolated.2 [(wUser, wLedger, wEnvFault)] 0⟩

/-- A stored credential that cannot be decrypted (the external decrypt throws). -/
def wEnvNoDecrypt : Env :=
  { decryptOk := false, tokenOk := true, readOk := true,
    msgs := [{ id := "m1", subject := "s", body := "b", received := 200, fetchOk := true }],
    appendFault := false, metaOk := true, now := 900 }

/-- A refresh-exchange failure (the token endpoint returns no access token). -/
def wEnvNoToken : Env :=
  { decryptOk := true, tokenOk := false, readOk := true,
    msgs := [{ id := "m1", subject := "s", body := "b", received := 200, fetchOk := true }],
    appendFault := false, metaOk := true, now := 1000 }

/-- C7: the claim requires a decryption failure to deactivate the account, but
    `decrypt` throws into the generic per-account catch, which only clears the
    busy flag and leaves the account active; only the refresh-exchange failure
    branch deactivates. Evaluated at the failing input (an undecryptable
    credential), the account stays active and no messages are processed. -/
theorem C7_decrypt_failure_leaves_account_active :
    processUser wUser wLedger wEnvNoDecrypt =
      ({ wUser with is_processing := false }, wLedger, none) ∧
    (processUser wUser wLedger wEnvNoDecrypt).1.is_active = true ∧
    processUser wUser wLedger wEnvNoToken =
      ({ wUser with is_active := false, is_processing := false }, wLedger, none) := by
  exact ⟨by decide, by decide, by decide⟩

/-! The canonical-timestamp shape (claim C6): `DD/MM/YYYY H:MM AM|PM`. -/

/-- Exactly two decimal digit characters. -/
def isTwoDigitL (l : List Char) : Bool :=
  match l with
  | [a, b] => a.isDigit && b.isDigit
  | _ => false

/-- Exactly four decimal digit characters. -/
def isFourDigitL (l : List Char) : Bool :=
  match l with
  | [a, b, c, d] => a.isDigit && b.isDigit && c.isDigit && d.isDigit
  | _ => false

/-- A 12-hour-clock hour rendering: one digit 1-9, or two digits without a
    leading zero valuing 10, 11 or 12. -/
def hourOkL (l : List Char) : Bool :=
  match l with
  | [c] => c.isDigit && c != '0'
  | [c1, c2] => c1.isDigit && c2.isDigit && c1 != '0' &&
      decide (1 ≤ digitsToNat [c1, c2]) && decide (digitsToNat [c1, c2] ≤ 12)
  | _ => false

/-- The claimed output shape: zero-padded two-digit day and month, four-digit
    year, unpadded hour 1-12, zero-padded minute, AM or PM. -/
def isCanonicalShapeL (cs : List Char) : Bool :=
  match cs with
  | d1 :: d2 :: s1 :: m1 :: m2 :: s2 :: rest =>
    d1.isDigit && d2.isDigit && (s1 == '/') && m1.isDigit && m2.isDigit && (s2 == '/') &&
    (let ys := rest.takeWhile Char.isDigit
     isFourDigitL ys &&
     (match rest.drop ys.length with
      | sp :: r2 =>
        (sp == ' ') &&
        (let hs := r2.takeWhile Char.isDigit
         hourOkL hs &&
         (match r2.drop hs.length with
          | co :: n1 :: n2 :: sp2 :: a :: mm :: tail =>
            (co == ':') && n1.isDigit && n2.isDigit && (sp2 == ' ') &&
            (a == 'A' || a == 'P') && (mm == 'M') && tail.isEmpty
          | _ => false))
      | _ => false))
  | _ => false

def isCanonicalShape (s : String) : Bool := isCanonicalShapeL s.data

theorem civil_day_bounds (z : Int) :
    1 ≤ (civilFromDays z).2.2 ∧ (civilFromDays z).2.2 ≤ 31 := by
  unfold civilFromDays
  dsimp only
  omega

theorem civil_month_bounds (z : Int) :
    1 ≤ (civilFromDays z).2.1 ∧ (civilFromDays z).2.1 ≤ 12 := by
  unfold civilFromDays
  dsimp only
  omega

theorem twoDigit_pad (n : Int) (h1 : 0 ≤ n) (h2 : n ≤ 60) :
    isTwoDigitL (jsPadStart2 (toString n)).data = true := by
  interval_cases n <;> decide

theorem hour_render_ok (h : Int) (h1 : 0 ≤ h) (h2 : h ≤ 23) :
    hourOkL (toString (if (h % 12 == 0 : Bool) then (12 : Int) else h % 12)).data = true := by
  interval_cases h <;> decide

/-! Decimal rendering: the digit structure of `Nat.repr`. -/

theorem toDigitsCore_acc (b : Nat) :
    ∀ (f n : Nat) (l : List Char),
      Nat.toDigitsCore b f n l = Nat.toDigitsCore b f n [] ++ l := by
  intro f
  induction f with
  | zero => intro n l; simp [Nat.toDigitsCore]
  | succ f ih =>
    intro n l
    simp only [Nat.toDigitsCore]
    by_cases hz : n / b = 0
    · simp [hz]
    · simp only [hz, if_neg]
      rw [ih (n / b) (Nat.digitChar (n % b) :: l), ih (n / b) [Nat.digitChar (n % b)]]
      simp

theorem toDigitsCore_fuel (b : Nat) (hb : 2 ≤ b) :
    ∀ (f f' n : Nat), n < f → n < f' →
      Nat.toDigitsCore b f n [] = Nat.toDigitsCore b f' n [] := by
  intro f
  induction f with
  | zero => intro f' n h _; omega
  | succ f ih =>
    intro f' n hf hf'
    cases f' with
    | zero => omega
    | succ f' =>
      simp only [Nat.toDigitsCore]
      by_cases hz : n / b = 0
      · simp [hz]
      · simp only [hz, if_neg]
        have hn : 0 < n := by
          rcases Nat.eq_zero_or_pos n with rfl | hpos
          · simp at hz
          · exact hpos
        have hdiv : n / b < n := Nat.div_lt_self hn (by omega)
        have hb1 : n / b < f := by omega
        have hb2 : n / b < f' := by omega
        rw [toDigitsCore_acc b f (n / b) [Nat.digitChar (n % b)],
            toDigitsCore_acc b f' (n / b) [Nat.digitChar (n % b)],
            ih f' (n / b) hb1 hb2]

theorem repr_data_base (n : Nat) (h : n < 10) :
    (Nat.repr n).data = [Nat.digitChar n] := by
  interval_cases n <;> decide

theorem repr_data_step (n : Nat) (h : 10 ≤ n) :
    (Nat.repr n).data = (Nat.repr (n / 10)).data ++ [Nat.digitChar (n % 10)] := by
  show (Nat.toDigits 10 n).asString.data = (Nat.toDigits 10 (n / 10)).asString.data ++ _
  unfold Nat.toDigits
  show Nat.toDigitsCore 10 (n + 1) n [] = Nat.toDigitsCore 10 (n / 10 + 1) (n / 10) [] ++ _
  have hz : ¬(n / 10 = 0) := by omega
  conv_lhs => rw [Nat.toDigitsCore]
  rw [if_neg hz]
  rw [toDigitsCore_acc 10 n (n / 10) [Nat.digitChar (n % 10)],
      toDigitsCore_fuel 10 (by omega) n (n / 10 + 1) (n / 10) (by omega) (by omega)]

theorem digitChar_isDigit (m : Nat) (h : m < 10) : (Nat.digitChar m).isDigit = true := by
  interval_cases m <;> decide

theorem nat_repr_four (n : Nat) (h1 : 1000 ≤ n) (h2 : n < 10000) :
    isFourDigitL (Nat.repr n).data = true := by
  have e1 := repr_data_step n (by omega)
  have e2 := repr_data_step (n / 10) (by omega)
  have e3 := repr_data_step (n / 10 / 10) (by omega)
  have e4 := repr_data_base (n / 10 / 10 / 10) (by omega)
  rw [e1, e2, e3, e4]
  simp only [List.cons_append, List.nil_append, isFourDigitL, List.append_eq]
  rw [digitChar_isDigit _ (by omega), digitChar_isDigit (n / 10 / 10 % 10) (by omega),
      digitChar_isDigit (n / 10 % 10) (by omega), digitChar_isDigit (n % 10) (by omega)]
  rfl

theorem int_year_four (y : Int) (h1 : 1000 ≤ y) (h2 : y ≤ 9999) :
    isFourDigitL (toString y).data = true := by
  obtain ⟨m, rfl⟩ := Int.eq_ofNat_of_zero_le (by omega : (0 : Int) ≤ y)
  show isFourDigitL (Nat.repr m).data = true
  exact nat_repr_four m (by omega) (by omega)

theorem isTwoDigitL_elim {l : List Char} (h : isTwoDigitL l = true) :
    ∃ a b, l = [a, b] ∧ a.isDigit = true ∧ b.isDigit = true := by
  match l with
  | [] => simp [isTwoDigitL] at h
  | [a] => simp [isTwoDigitL] at h
  | [a, b] =>
    simp only [isTwoDigitL, Bool.and_eq_true] at h
    exact ⟨a, b, rfl, h.1, h.2⟩
  | a :: b :: c :: l3 => simp [isTwoDigitL] at h

theorem isFourDigitL_elim {l : List Char} (h : isFourDigitL l = true) :
    ∃ a b c d, l = [a, b, c, d] ∧ a.isDigit = true ∧ b.isDigit = true ∧
      c.isDigit = true ∧ d.isDigit = true := by
  match l with
  | [a, b, c, d] =>
    simp only [isFourDigitL, Bool.and_eq_true] at h
    exact ⟨a, b, c, d, rfl, h.1.1.1, h.1.1.2, h.1.2, h.2⟩
  | [] | [_] | [_, _] | [_, _, _] => simp [isFourDigitL] at h
  | _ :: _ :: _ :: _ :: _ :: _ => simp [isFourDigitL] at h

theorem hourOkL_elim {l : List Char} (h : hourOkL l = true) :
    (∃ c, l = [c] ∧ c.isDigit = true) ∨
    (∃ c1 c2, l = [c1, c2] ∧ c1.isDigit = true ∧ c2.isDigit = true) := by
  match l with
  | [] => simp [hourOkL] at h
  | [c] =>
    simp only [hourOkL, Bool.and_eq_true] at h
    exact Or.inl ⟨c, rfl, h.1⟩
  | [c1, c2] =>
    simp only [hourOkL, Bool.and_eq_true] at h
    exact Or.inr ⟨c1, c2, rfl, h.1.1.1.1, h.1.1.1.2⟩
  | _ :: _ :: _ :: _ => simp [hourOkL] at h

/-- Assembling well-formed pieces yields the canonical shape. -/
theorem shape_of_parts (d1 d2 m1 m2 n1 n2 a : Char) (yc hc : List Char)
    (hd1 : d1.isDigit = true) (hd2 : d2.isDigit = true)
    (hm1 : m1.isDigit = true) (hm2 : m2.isDigit = true)
    (hyc : isFourDigitL yc = true) (hhc : hourOkL hc = true)
    (hn1 : n1.isDigit = true) (hn2 : n2.isDigit = true)
    (ha : a = 'A' ∨ a = 'P') :
    isCanonicalShapeL (d1 :: d2 :: '/' :: m1 :: m2 :: '/' ::
      (yc ++ ' ' :: (hc ++ ':' :: n1 :: n2 :: ' ' :: a :: ['M']))) = true := by
  obtain ⟨y1, y2, y3, y4, rfl, hy1, hy2, hy3, hy4⟩ := isFourDigitL_elim hyc
  have hsp : (' ').isDigit = false := by decide
  have hco : (':').isDigit = false := by decide
  rcases hourOkL_elim hhc with ⟨c, rfl, hcd⟩ | ⟨c1, c2, rfl, hcd1, hcd2⟩
  · rcases ha with rfl | rfl <;>
      simp [isCanonicalShapeL, List.takeWhile, hy1, hy2, hy3, hy4, hd1, hd2, hm1, hm2,
            hn1, hn2, hsp, hco, hcd, isFourDigitL] <;>
      simpa [hourOkL] using hhc
  · rcases ha with rfl | rfl <;>
      simp [isCanonicalShapeL, List.takeWhile, hy1, hy2, hy3, hy4, hd1, hd2, hm1, hm2,
            hn1, hn2, hsp, hco, hcd1, hcd2, isFourDigitL] <;>
      simpa [hourOkL] using hhc

/-- C6 (amended): for every instant whose year renders with four digits
    (1000-9999), the formatter's output has the canonical
    `DD/MM/YYYY H:MM AM|PM` shape: day, month and minute zero-padded to two
    digits, four-digit year, and an hour 1-12 that is never zero-padded. -/
theorem C6_format_shape (t : Int)
    (hy1 : 1000 ≤ msGetFullYear t) (hy2 : msGetFullYear t ≤ 9999) :
    isCanonicalShape (formatToIndianDateTime (some t)) = true := by
  have hdb := civil_day_bounds (t / 86400000)
  have hmb := civil_month_bounds (t / 86400000)
  have hday : 1 ≤ msGetDate t ∧ msGetDate t ≤ 31 := by unfold msGetDate; exact hdb
  have hmon : 1 ≤ msGetMonth t + 1 ∧ msGetMonth t + 1 ≤ 12 := by unfold msGetMonth; omega
  have hhr : 0 ≤ msGetHours t ∧ msGetHours t ≤ 23 := by unfold msGetHours; omega
  have hmin : 0 ≤ msGetMinutes t ∧ msGetMinutes t ≤ 59 := by unfold msGetMinutes; omega
  obtain ⟨d1, d2, hdeq, hd1, hd2⟩ :=
    isTwoDigitL_elim (twoDigit_pad (msGetDate t) (by omega) (by omega))
  obtain ⟨m1, m2, hmeq, hm1, hm2⟩ :=
    isTwoDigitL_elim (twoDigit_pad (msGetMonth t + 1) (by omega) (by omega))
  obtain ⟨n1, n2, hneq, hn1, hn2⟩ :=
    isTwoDigitL_elim (twoDigit_pad (msGetMinutes t) (by omega) (by omega))
  have hyc := int_year_four (msGetFullYear t) hy1 hy2
  have hhc := hour_render_ok (msGetHours t) (by omega) (by omega)
  unfold isCanonicalShape formatToIndianDateTime
  dsimp only
  by_cases hampm : msGetHours t ≥ 12
  · rw [if_pos hampm]
    simp only [String.data_append, hdeq, hmeq, hneq,
      show ("/" : String).data = ['/'] from rfl,
      show (" " : String).data = [' '] from rfl,
      show (":" : String).data = [':'] from rfl,
      show ("PM" : String).data = ['P', 'M'] from rfl,
      List.cons_append, List.nil_append, List.append_assoc]
    exact shape_of_parts d1 d2 m1 m2 n1 n2 'P' _ _ hd1 hd2 hm1 hm2 hyc hhc hn1 hn2 (Or.inr rfl)
  · rw [if_neg hampm]
    simp only [String.data_append, hdeq, hmeq, hneq,
      show ("/" : String).data = ['/'] from rfl,
      show (" " : String).data = [' '] from rfl,
      show (":" : String).data = [':'] from rfl,
      show ("AM" : String).data = ['A', 'M'] from rfl,
      List.cons_append, List.nil_append, List.append_assoc]
    exact shape_of_parts d1 d2 m1 m2 n1 n2 'A' _ _ hd1 hd2 hm1 hm2 hyc hhc hn1 hn2 (Or.inl rfl)

/-- The instant 0999-01-12 18:51 (local), reachable from a "12-01-0999" date
    token: its year renders with three digits. -/
def instantYear999 : Int := jsSetHours (jsMakeDateMs 999 0 12) 18 51 0

/-- C6 counterexample: the code does not zero-pad the year (it interpolates
    `getFullYear()` raw), so for an instant in year 999 the output misses the
    `DD/MM/YYYY H:MM AM|PM` shape — its year field has only three digits. -/
theorem C6_counterexample_year_not_padded :
    msGetFullYear instantYear999 = 999 ∧
    formatToIndianDateTime (some instantYear999) = "12/01/999 6:51 PM" ∧
    isCanonicalShape (formatToIndianDateTime (some instantYear999)) = false := by
  exact ⟨by decide, by decide, by decide⟩

/-- The instant 2026-01-12 18:51 (local). -/
def instant2026 : Int := jsSetHours (jsMakeDateMs 2026 0 12) 18 51 0

theorem C6_witness :
    1000 ≤ msGetFullYear instant2026 ∧ msGetFullYear instant2026 ≤ 9999 ∧
    isCanonicalShape (formatToIndianDateTime (some instant2026)) = true :=
  ⟨by decide, by decide, C6_format_shape instant2026 (by decide) (by decide)⟩

theorem C5_witness :
    ((parseHDFCEmail noDirectionBody "" 0 "id1").transaction.getD
        (initTransaction 0)).referenceNumber ≠ "" ∧
    ((parseHDFCEmail noDirectionBody "" 0 "id1").transaction.getD
        (initTransaction 0)).referenceNumber = "EMAIL_" ++ "id1" := by
  have h : (parseHDFCEmail noDirectionBody "" 0 "id1").transaction =
      some ((parseHDFCEmail noDirectionBody "" 0 "id1").transaction.getD
        (initTransaction 0)) := by decide
  obtain ⟨h1, h2⟩ := C5_reference_number_nonempty_fallback noDirectionBody "" 0 "id1" _ h
  exact ⟨h1, h2 (by decide)⟩

theorem C9_witness :
    ((parseHDFCEmail hdfcExampleBody "" 0 "id9").transaction.getD
        (initTransaction 0)).method.data.map Char.toLower ∈ methodVocabLower ∧
    ((parseHDFCEmail cashDepositBody "" 0 "id10").transaction.getD
        (initTransaction 0)).method = "Cash Deposit" := by
  have h : (parseHDFCEmail hdfcExampleBody "" 0 "id9").transaction =
      some ((parseHDFCEmail hdfcExampleBody "" 0 "id9").transaction.getD
        (initTransaction 0)) := by decide
  have h2 : (parseHDFCEmail cashDepositBody "" 0 "id10").transaction =
      some ((parseHDFCEmail cashDepositBody "" 0 "id10").transaction.getD
        (initTransaction 0)) := by decide
  have hscan : reScan reFuel methodRE (normalizeBody cashDepositBody) =
      some ((reScan reFuel methodRE (normalizeBody cashDepositBody)).getD []) := by decide
  exact ⟨(C9_method_vocabulary hdfcExampleBody "" 0 "id9" _ h).1,
         (C9_method_vocabulary cashDepositBody "" 0 "id10" _ h2).2.1 _ hscan (by decide)⟩
